import Mathlib

/-!
octosql: changelog records and the watermark trigger.

A shallow embedding of `execution/record.go` and `execution/trigger/watermark.go`
together with the properties of the two components.

* Go slices are Lean lists, Go `time.Time` instants are integers (the offset of
  the instant from the zero `time.Time`, so the zero time is `0`,
  `a.Before b` is `a < b` and `a.After b` is `b < a`).
* The transactional store is explicit state: the trigger state holds the three
  values the trigger keeps under its three key namespaces. The storage calls
  themselves are taken to succeed, `ErrNotFound` on an unset scalar apart.
* A Go `panic` and a call that does not return are explicit results.
-/

namespace octosql

/-- Modelled from the spec: `octosql.Value` of the root package (not part of the
two source files). A value is null, a boolean, an integer, a string or a time;
`zero` is `octosql.ZeroValue()`, what a Go map yields for a missing key. -/
inductive Value where
  | zero
  | null
  | bool (b : Bool)
  | int (n : Int)
  | string (s : String)
  | time (t : Int)
  deriving DecidableEq, Repr

/-- Modelled from the spec: `octosql.ZeroValue()`. -/
def ZeroValue : Value := Value.zero

/-- Modelled from the spec: `octosql.MakeNull()`, the null value. -/
def MakeNull : Value := Value.null

/-- Modelled from the spec: `octosql.MakeBool(b)`. -/
def MakeBool (b : Bool) : Value := Value.bool b

/-- Modelled from the spec: `octosql.MakeInt(n)`. -/
def MakeInt (n : Int) : Value := Value.int n

/-- Modelled from the spec: `octosql.VariableName` of the root package, a field
identifier: a string of the form `source.name` (as in `sys.undo`) or a bare
`name`. -/
structure VariableName where
  str : String
  deriving DecidableEq, Repr

/-- Modelled from the spec: `octosql.NewVariableName`. -/
def NewVariableName (varname : String) : VariableName := ⟨varname⟩

/-- Modelled from the spec: `VariableName.Source()`, the text before the first
dot, empty when the identifier has no dot (`sys` for `sys.undo`). -/
def VariableName.Source (vn : VariableName) : String :=
  if '.' ∈ vn.str.data then String.mk (vn.str.data.takeWhile (fun c => c != '.')) else ""

/-- Modelled from the spec: `VariableName.Name()`, the text after the first dot,
the whole identifier when it has no dot (`undo` for `sys.undo`). -/
def VariableName.Name (vn : VariableName) : String :=
  if '.' ∈ vn.str.data then String.mk ((vn.str.data.dropWhile (fun c => c != '.')).tail)
  else vn.str

/-- Modelled from the spec: `octosql.Variables` of the root package, a Go map from
field identifier to value, as its lookup: `none` for a key the map does not
hold. -/
abbrev Variables := VariableName → Option Value

/-- Modelled from the spec: `VariableName.String()`, the identifier as text. -/
def VariableName.String (vn : VariableName) := vn.str

end octosql

namespace trigger

open octosql

/-- A `time.Time` instant, as its offset from the zero time. -/
abbrev Time := Int

/-- Modelled from the spec: `TimeSortedKeys` (section 4.3; its source file is not
among the two given). The index is the collection of pending `(key, time)`
entries, in the order they were scheduled. -/
abbrev TimeSortedKeys := List (Value × Time)

/-- Modelled from the spec: `TimeSortedKeys.Update(key, time)` (section 4.3):
schedule `key` at `time`, replacing any prior entry of that key. -/
def TimeSortedKeys.Update (tsk : TimeSortedKeys) (key : Value) (t : Time) : TimeSortedKeys :=
  tsk.filter (fun e => decide (e.1 ≠ key)) ++ [(key, t)]

/-- Modelled from the spec: `TimeSortedKeys.GetFirst()` (section 4.3): the entry
with the globally minimum time, `none` (the not-found signal) on an empty index.
Among entries of equal time the one scheduled first is returned; the spec leaves
that tie-break to the index. -/
def TimeSortedKeys.GetFirst : TimeSortedKeys → Option (Value × Time)
  | [] => none
  | e :: es =>
    match TimeSortedKeys.GetFirst es with
    | none => some e
    | some m => if m.2 < e.2 then some m else some e

/-- Modelled from the spec: `TimeSortedKeys.Delete(key, time)` (section 4.3):
remove the exact `(key, time)` entry, a no-op when there is none. -/
def TimeSortedKeys.Delete : TimeSortedKeys → Value → Time → TimeSortedKeys
  | [], _, _ => []
  | e :: es, key, t => if e = (key, t) then es else e :: TimeSortedKeys.Delete es key t

/-- The persistent state of a `WatermarkTrigger` inside its transaction: the
scalar under `watermarkPrefix`, the index under `timeSortedKeys` and the scalar
under `readyToFirePrefix`. `none` is a scalar never set (`storage.ErrNotFound`). -/
structure State where
  watermark : Option Time
  timeKeys : TimeSortedKeys
  readyToFire : Option Bool
  deriving DecidableEq, Repr

/-- The empty trigger state: no watermark, empty index, no ready flag. -/
def State.empty : State := ⟨none, [], none⟩

/-- How a trigger call can end other than by a plain return: the sentinel
`execution.ErrNoKeyToFire` and the two `panic("unreachable")` of `PollKeyToFire`
(line 116: `GetFirst` found nothing; line 131: the watermark is before the time
of the first entry). -/
inductive Failure where
  | ErrNoKeyToFire
  | unreachableNotFound
  | unreachableBefore
  deriving DecidableEq, Repr

/-- The block `var watermark time.Time; err := watermarkStorage.Get(..)` of
`RecordReceived` and `PollKeyToFire`: the stored watermark, the zero time when
none is stored. -/
def State.getWatermark (s : State) : Time :=
  match s.watermark with
  | some w => w
  | none => 0

/-- The block `readyToFire.Get(&octoReady)` of `PollKeyToFire`: the stored flag,
`false` when none is stored. -/
def State.getReady (s : State) : Bool :=
  match s.readyToFire with
  | some b => b
  | none => false

/-- `WatermarkTrigger.RecordReceived`. -/
def RecordReceived (s : State) (key : Value) (eventTime : Time) : Except Failure State :=
  let watermark := s.getWatermark
  if eventTime < watermark then
    -- watermark.After(eventTime): late data, logged and dropped
    .ok s
  else
    .ok { s with timeKeys := TimeSortedKeys.Update s.timeKeys key eventTime }

/-- `WatermarkTrigger.isSomethingReadyToFire`, on the index of the transaction. -/
def isSomethingReadyToFire (timeKeys : TimeSortedKeys) (watermark : Time) : Bool :=
  match TimeSortedKeys.GetFirst timeKeys with
  | none => false
  | some (_, sendTime) => if watermark < sendTime then false else true

/-- `WatermarkTrigger.UpdateWatermark`. -/
def UpdateWatermark (s : State) (watermark : Time) : Except Failure State :=
  let s1 : State := { s with watermark := some watermark }
  let ready := isSomethingReadyToFire s1.timeKeys watermark
  if ready then
    .ok { s1 with readyToFire := some true }
  else
    .ok s1

/-- `WatermarkTrigger.PollKeyToFire`: the fired key and the state after the call,
or the way the call failed. -/
def PollKeyToFire (s : State) : Except Failure (Value × State) :=
  if !s.getReady then
    .error Failure.ErrNoKeyToFire
  else
    match TimeSortedKeys.GetFirst s.timeKeys with
    | none => .error Failure.unreachableNotFound
    | some (key, sendTime) =>
      let watermark := s.getWatermark
      if watermark < sendTime then
        .error Failure.unreachableBefore
      else
        let s1 : State := { s with timeKeys := TimeSortedKeys.Delete s.timeKeys key sendTime }
        let ready := isSomethingReadyToFire s1.timeKeys watermark
        if !ready then
          .ok (key, { s1 with readyToFire := some false })
        else
          .ok (key, s1)

/-- `WatermarkTrigger.KeyFired`: a no-op. -/
def KeyFired (s : State) (_key : Value) : Except Failure State := .ok s

/-- One call of the trigger interface. -/
inductive Op where
  | recordReceived (key : Value) (eventTime : Time)
  | updateWatermark (watermark : Time)
  | pollKeyToFire
  deriving DecidableEq, Repr

/-- The state of the transaction after one call. A call that fails has written
nothing before it fails (both panics and the `ErrNoKeyToFire` return of
`PollKeyToFire` precede its first write), so it leaves the state as it was. -/
def applyOp (s : State) : Op → State
  | .recordReceived key eventTime =>
    match RecordReceived s key eventTime with
    | .ok s1 => s1
    | .error _ => s
  | .updateWatermark watermark =>
    match UpdateWatermark s watermark with
    | .ok s1 => s1
    | .error _ => s
  | .pollKeyToFire =>
    match PollKeyToFire s with
    | .ok (_, s1) => s1
    | .error _ => s

/-- The state after a sequence of calls. -/
def run (s : State) (ops : List Op) : State := ops.foldl applyOp s

/-- The caller loop of section 6: call `PollKeyToFire` until it fails, at most
`n` times. The result is the keys returned in order, the state the loop stopped
in, and how the last call failed (`none` when the `n` calls all returned a key). -/
def pollLoop : Nat → State → List Value × State × Option Failure
  | 0, s => ([], s, none)
  | n + 1, s =>
    match PollKeyToFire s with
    | .error e => ([], s, some e)
    | .ok (key, s1) =>
      let r := pollLoop n s1
      (key :: r.1, r.2.1, r.2.2)

/-- The time a key is scheduled at in the index, `none` for a key that is not
pending. -/
def TimeSortedKeys.scheduledTime (tsk : TimeSortedKeys) (key : Value) : Option Time :=
  match tsk.find? (fun e => decide (e.1 = key)) with
  | some e => some e.2
  | none => none

/-- The bookkeeping every reachable trigger state satisfies: a true ready flag
comes with a non-empty index, a false or absent one with no pending time
strictly before the watermark, and no key has two entries. -/
def Consistent (s : State) : Prop :=
  (s.getReady = true → s.timeKeys ≠ []) ∧
  (s.getReady = false → ∀ e ∈ s.timeKeys, s.getWatermark ≤ e.2) ∧
  (s.timeKeys.map Prod.fst).Nodup

/-- The watermarks a sequence of calls passes to `UpdateWatermark`, in order. -/
def watermarksOf : List Op → List Time
  | [] => []
  | Op.updateWatermark w :: ops => w :: watermarksOf ops
  | Op.recordReceived _ _ :: ops => watermarksOf ops
  | Op.pollKeyToFire :: ops => watermarksOf ops

/-- The keys the `PollKeyToFire` calls of a sequence of calls return, in order,
each with the time it was scheduled at in the index when it was returned. -/
def firedLog : State → List Op → List (Value × Option Time)
  | _, [] => []
  | s, Op.pollKeyToFire :: ops =>
    match PollKeyToFire s with
    | .ok (key, s1) => (key, TimeSortedKeys.scheduledTime s.timeKeys key) :: firedLog s1 ops
    | .error _ => firedLog s ops
  | s, Op.recordReceived key eventTime :: ops =>
    firedLog (applyOp s (Op.recordReceived key eventTime)) ops
  | s, Op.updateWatermark w :: ops => firedLog (applyOp s (Op.updateWatermark w)) ops

/-- What holds between a state, the calls still to come and a time `l` no key
fired from here on is scheduled before: no key has two entries, `l` is not after
any pending time, the current watermark or any watermark to come; the
watermarks to come are non-decreasing and not before the stored one; and a true
ready flag comes with a stored watermark. -/
def TraceInv (s : State) (ops : List Op) (l : Time) : Prop :=
  (s.timeKeys.map Prod.fst).Nodup ∧
  (∀ e ∈ s.timeKeys, l ≤ e.2) ∧
  l ≤ s.getWatermark ∧
  (∀ w ∈ watermarksOf ops, l ≤ w) ∧
  (∀ w0, s.watermark = some w0 → ∀ w ∈ watermarksOf ops, w0 ≤ w) ∧
  (watermarksOf ops).Pairwise (fun a b => a ≤ b) ∧
  (s.getReady = true → ∃ w0, s.watermark = some w0)

end trigger

namespace execution

open octosql

/-- `Field`. -/
structure Field where
  Name : VariableName
  deriving DecidableEq, Repr

/-- `ID`, the opaque identity token of a record. -/
structure ID where
  id : String
  deriving DecidableEq, Repr

/-- `NewID`. -/
def NewID (id : String) : ID := ⟨id⟩

/-- `metadata`. The Go zero value has an empty id, `undo = false` and an empty
event-time designator. -/
structure metadata where
  id : ID
  undo : Bool
  eventTimeField : VariableName
  deriving DecidableEq, Repr

/-- `Record`. -/
structure Record where
  metadata : metadata
  fieldNames : List VariableName
  data : List Value
  deriving DecidableEq, Repr

/-- `RecordOption`: the four option constructors of the package, named by the
function that builds them. -/
inductive RecordOption where
  | WithUndo
  | WithEventTimeField (field : VariableName)
  | WithMetadataFrom (base : Record)
  | WithID (id : ID)

/-- What a `RecordOption` does to the record under construction. -/
def RecordOption.apply (r : Record) : RecordOption → Record
  | .WithUndo => { r with metadata := { r.metadata with undo := true } }
  | .WithEventTimeField field => { r with metadata := { r.metadata with eventTimeField := field } }
  | .WithMetadataFrom base => { r with metadata := base.metadata }
  | .WithID id => { r with metadata := { r.metadata with id := id } }

/-- `NewRecordFromSlice`. -/
def NewRecordFromSlice (fields : List VariableName) (data : List Value)
    (opts : List RecordOption) : Record :=
  opts.foldl RecordOption.apply ⟨⟨⟨""⟩, false, ⟨""⟩⟩, fields, data⟩

/-- `NewRecord`. The Go map `data` is its lookup function, which yields the zero
`Value` for a key the map does not hold. -/
def NewRecord (fields : List VariableName) (data : VariableName → Value)
    (opts : List RecordOption) : Record :=
  let dataInner := fields.map (fun f => data f)
  NewRecordFromSlice fields dataInner opts

/-- How a call on a record can end other than by returning: the runtime panic of
an index past the end of `data`, and a nesting of calls deeper than the budget
the call was given. -/
inductive Fault where
  | indexOutOfRange
  | depthExceeded
  deriving DecidableEq, Repr

deriving instance DecidableEq for Except

/-- `Record.IsUndo`. -/
def Record.IsUndo (r : Record) : Bool := r.metadata.undo

/-- The loop `for i := range r.fieldNames` of `Record.Value`, on the names and
data from position `i` on: the data of the first name equal to `field`, null
when there is none, a panic when `data` is too short to have that position. -/
def lookupField (field : VariableName) : List VariableName → List Value → Except Fault Value
  | [], _ => .ok MakeNull
  | n :: ns, [] => if n = field then .error Fault.indexOutOfRange else lookupField field ns []
  | n :: ns, d :: ds => if n = field then .ok d else lookupField field ns ds

mutual

/-- `Record.Value`, with a budget `depth` on the nesting of calls: each call of
`Value` and each call of `EventTime` uses one unit. -/
def Record.Value : Nat → Record → VariableName → Except Fault Value
  | 0, _, _ => .error Fault.depthExceeded
  | depth + 1, r, field =>
    if field.Source = "sys" then
      if field.Name = "undo" then .ok (MakeBool r.IsUndo)
      else if field.Name = "event_time" then Record.EventTime depth r
      else .ok MakeNull
    else lookupField field r.fieldNames r.data

/-- `Record.EventTime`. -/
def Record.EventTime : Nat → Record → Except Fault Value
  | 0, _ => .error Fault.depthExceeded
  | depth + 1, r => Record.Value depth r r.metadata.eventTimeField

end

/-- `Record.Fields`. -/
def Record.Fields (r : Record) : List Field :=
  let fields := r.fieldNames.map (fun fieldName => Field.mk fieldName)
  let fields :=
    if r.metadata.eventTimeField.String.length ≠ 0 then
      fields ++ [Field.mk (NewVariableName "sys.event_time")]
    else fields
  if r.IsUndo then fields ++ [Field.mk (NewVariableName "sys.undo")] else fields

/-- The loop `for i := range r.fieldNames` of `Record.AsVariables`, on the names
and data from position `i` on, `out` being the map built so far: each step
assigns `out[r.fieldNames[i]] = r.data[i]`, a panic when `data` is too short. -/
def asVariablesLoop (out : Variables) : List VariableName → List Value → Except Fault Variables
  | [], _ => .ok out
  | _ :: _, [] => .error Fault.indexOutOfRange
  | n :: ns, d :: ds => asVariablesLoop (fun f => if f = n then some d else out f) ns ds

/-- `Record.AsVariables`. -/
def Record.AsVariables (r : Record) : Except Fault Variables :=
  asVariablesLoop (fun _ => none) r.fieldNames r.data

/-- `Record.ID`. -/
def Record.ID (r : Record) : ID := r.metadata.id

/-- The loop `for i := range myFields` of `Record.Equal` on the two field lists
from position `i` on (of equal length). `AreEqual` of the root package is the
parameter `areEqual`. -/
def equalLoop (areEqual : Value → Value → Bool) (depth : Nat) (r other : Record) :
    List Field → List Field → Except Fault Bool
  | f :: fs, g :: gs =>
    if f ≠ g then .ok false
    else
      match Record.Value depth r f.Name, Record.Value depth other f.Name with
      | .error e, _ => .error e
      | .ok _, .error e => .error e
      | .ok a, .ok b => if !areEqual a b then .ok false else equalLoop areEqual depth r other fs gs
  | _, _ => .ok true

/-- `Record.Equal`, with the budget `depth` for each of its calls of `Value`. -/
def Record.Equal (areEqual : octosql.Value → octosql.Value → Bool) (depth : Nat) (r other : Record) :
    Except Fault Bool :=
  let myFields := r.Fields
  let otherFields := other.Fields
  if myFields.length ≠ otherFields.length then .ok false
  else
    match equalLoop areEqual depth r other myFields otherFields with
    | .error e => .error e
    | .ok false => .ok false
    | .ok true =>
      if r.metadata.eventTimeField.String ≠ other.metadata.eventTimeField.String then .ok false
      else if r.metadata.undo ≠ other.metadata.undo then .ok false
      else .ok true

end execution

/-! ## The watermark trigger -/

namespace trigger

open octosql

theorem getFirst_eq_none_iff (l : TimeSortedKeys) :
    TimeSortedKeys.GetFirst l = none ↔ l = [] := by
  cases l with
  | nil => simp [TimeSortedKeys.GetFirst]
  | cons e es =>
    simp only [TimeSortedKeys.GetFirst]
    cases TimeSortedKeys.GetFirst es with
    | none => simp
    | some m => by_cases h : m.2 < e.2 <;> simp [h]

theorem getFirst_mem (l : TimeSortedKeys) (m : Value × Time)
    (h : TimeSortedKeys.GetFirst l = some m) : m ∈ l := by
  induction l generalizing m with
  | nil => simp [TimeSortedKeys.GetFirst] at h
  | cons e es ih =>
    simp only [TimeSortedKeys.GetFirst] at h
    cases hg : TimeSortedKeys.GetFirst es with
    | none =>
      rw [hg] at h
      simp at h
      simp [h]
    | some m1 =>
      rw [hg] at h
      by_cases hlt : m1.2 < e.2
      · simp [hlt] at h
        subst h
        exact List.mem_cons_of_mem _ (ih m1 hg)
      · simp [hlt] at h
        simp [h]

theorem getFirst_le (l : TimeSortedKeys) (m : Value × Time)
    (h : TimeSortedKeys.GetFirst l = some m) : ∀ e ∈ l, m.2 ≤ e.2 := by
  induction l generalizing m with
  | nil => simp
  | cons e es ih =>
    simp only [TimeSortedKeys.GetFirst] at h
    cases hg : TimeSortedKeys.GetFirst es with
    | none =>
      rw [hg] at h
      simp at h
      have hes : es = [] := (getFirst_eq_none_iff es).1 hg
      subst hes
      subst h
      simp
    | some m1 =>
      rw [hg] at h
      have ih1 := ih m1 hg
      by_cases hlt : m1.2 < e.2
      · simp [hlt] at h
        subst h
        intro x hx
        rcases List.mem_cons.1 hx with rfl | hx
        · exact le_of_lt hlt
        · exact ih1 x hx
      · simp [hlt] at h
        subst h
        intro x hx
        rcases List.mem_cons.1 hx with rfl | hx
        · exact le_refl _
        · exact le_trans (not_lt.1 hlt) (ih1 x hx)

/-- What `isSomethingReadyToFire` computes: the index is non-empty and the time
of its first entry is not after the watermark. -/
theorem isSomethingReadyToFire_iff (l : TimeSortedKeys) (w : Time) :
    isSomethingReadyToFire l w = true ↔
      ∃ m, TimeSortedKeys.GetFirst l = some m ∧ m.2 ≤ w := by
  unfold isSomethingReadyToFire
  cases hg : TimeSortedKeys.GetFirst l with
  | none => simp
  | some m =>
    obtain ⟨k, t⟩ := m
    by_cases h : w < t
    · simp [h]
    · simp [h, not_lt.1 h]

/-- The poll step, case by case. -/
theorem pollKeyToFire_ok_iff (s s1 : State) (key : Value) :
    PollKeyToFire s = .ok (key, s1) ↔
      s.getReady = true ∧ ∃ sendTime,
        TimeSortedKeys.GetFirst s.timeKeys = some (key, sendTime) ∧
        sendTime ≤ s.getWatermark ∧
        s1 = { s with
          timeKeys := TimeSortedKeys.Delete s.timeKeys key sendTime
          readyToFire :=
            if isSomethingReadyToFire (TimeSortedKeys.Delete s.timeKeys key sendTime)
                s.getWatermark then s.readyToFire else some false } := by
  unfold PollKeyToFire
  cases hr : s.getReady with
  | false => simp
  | true =>
    cases hg : TimeSortedKeys.GetFirst s.timeKeys with
    | none => simp
    | some m =>
      obtain ⟨k, t⟩ := m
      by_cases hw : s.getWatermark < t
      · simp only [hw, Bool.not_true, Bool.false_eq_true, if_false, if_true, true_and]
        constructor
        · intro h
          cases h
        · rintro ⟨t1, h1, h2, _⟩
          simp only [Option.some.injEq, Prod.mk.injEq] at h1
          obtain ⟨_, rfl⟩ := h1
          exact absurd h2 (not_le.2 hw)
      · simp only [hw, Bool.not_true, Bool.false_eq_true, if_false, true_and]
        cases hi : isSomethingReadyToFire (TimeSortedKeys.Delete s.timeKeys k t) s.getWatermark with
        | false =>
          simp only [Bool.not_false, if_true, Except.ok.injEq, Prod.mk.injEq, Option.some.injEq]
          constructor
          · rintro ⟨rfl, rfl⟩
            exact ⟨t, ⟨rfl, rfl⟩, not_lt.1 hw, by simp [hi]⟩
          · rintro ⟨t1, ⟨rfl, rfl⟩, _, h3⟩
            refine ⟨rfl, ?_⟩
            rw [h3]
            simp [hi]
        | true =>
          simp only [Bool.not_true, Bool.false_eq_true, if_false, Except.ok.injEq, Prod.mk.injEq,
            Option.some.injEq]
          constructor
          · rintro ⟨rfl, rfl⟩
            exact ⟨t, ⟨rfl, rfl⟩, not_lt.1 hw, by simp [hi]⟩
          · rintro ⟨t1, ⟨rfl, rfl⟩, _, h3⟩
            refine ⟨rfl, ?_⟩
            rw [h3]
            simp [hi]

theorem isSomethingReadyToFire_false (l : TimeSortedKeys) (w : Time)
    (h : isSomethingReadyToFire l w = false) : ∀ e ∈ l, w < e.2 := by
  unfold isSomethingReadyToFire at h
  cases hg : TimeSortedKeys.GetFirst l with
  | none =>
    have hl : l = [] := (getFirst_eq_none_iff l).1 hg
    subst hl
    simp
  | some m =>
    obtain ⟨k, t⟩ := m
    rw [hg] at h
    by_cases hw : w < t
    · intro e he
      exact lt_of_lt_of_le hw (getFirst_le l (k, t) hg e he)
    · simp [hw] at h

theorem update_ne_nil (l : TimeSortedKeys) (key : Value) (t : Time) :
    TimeSortedKeys.Update l key t ≠ [] := by
  simp [TimeSortedKeys.Update]

theorem mem_update (l : TimeSortedKeys) (key : Value) (t : Time) (e : Value × Time) :
    e ∈ TimeSortedKeys.Update l key t ↔ (e ∈ l ∧ e.1 ≠ key) ∨ e = (key, t) := by
  simp [TimeSortedKeys.Update, List.mem_filter]

theorem update_nodupKeys (l : TimeSortedKeys) (key : Value) (t : Time)
    (h : (l.map Prod.fst).Nodup) : ((TimeSortedKeys.Update l key t).map Prod.fst).Nodup := by
  unfold TimeSortedKeys.Update
  rw [List.map_append, List.nodup_append]
  refine ⟨?_, by simp, ?_⟩
  · exact List.Nodup.sublist ((List.filter_sublist l).map Prod.fst) h
  · intro a ha hb
    simp only [List.map_cons, List.map_nil, List.mem_singleton] at hb
    subst hb
    rcases List.mem_map.1 ha with ⟨e, he, hfst⟩
    have := (List.mem_filter.1 he).2
    simp only [ne_eq, decide_not, Bool.not_eq_eq_eq_not, Bool.not_true, decide_eq_false_iff_not] at this
    exact this hfst

theorem delete_sublist (l : TimeSortedKeys) (key : Value) (t : Time) :
    (TimeSortedKeys.Delete l key t).Sublist l := by
  induction l with
  | nil => simp [TimeSortedKeys.Delete]
  | cons e es ih =>
    simp only [TimeSortedKeys.Delete]
    split
    · exact List.sublist_cons_self e es
    · exact List.Sublist.cons₂ e ih

theorem delete_perm (l : TimeSortedKeys) (key : Value) (t : Time) (h : (key, t) ∈ l) :
    List.Perm ((key, t) :: TimeSortedKeys.Delete l key t) l := by
  induction l with
  | nil => simp at h
  | cons e es ih =>
    simp only [TimeSortedKeys.Delete]
    by_cases he : e = (key, t)
    · simp [he]
    · simp only [he, if_false]
      have hm : (key, t) ∈ es := by
        rcases List.mem_cons.1 h with h | h
        · exact absurd h.symm he
        · exact h
      exact (List.Perm.swap e (key, t) _).trans (List.Perm.cons e (ih hm))

theorem delete_nodupKeys (l : TimeSortedKeys) (key : Value) (t : Time)
    (h : (l.map Prod.fst).Nodup) : ((TimeSortedKeys.Delete l key t).map Prod.fst).Nodup :=
  List.Nodup.sublist ((delete_sublist l key t).map Prod.fst) h

theorem consistent_empty : Consistent State.empty := by
  refine ⟨?_, ?_, ?_⟩ <;> simp [State.empty, State.getReady]

theorem consistent_recordReceived (s : State) (key : Value) (t : Time) (h : Consistent s) :
    Consistent (applyOp s (.recordReceived key t)) := by
  obtain ⟨h1, h2, h3⟩ := h
  simp only [applyOp, RecordReceived]
  by_cases hl : t < s.getWatermark
  · simp only [hl, if_true]
    exact ⟨h1, h2, h3⟩
  · simp only [hl, if_false]
    refine ⟨fun _ => update_ne_nil _ _ _, ?_, update_nodupKeys _ _ _ h3⟩
    intro hr e he
    rcases (mem_update _ _ _ _).1 he with ⟨hm, _⟩ | rfl
    · exact h2 hr e hm
    · exact not_lt.1 hl

theorem consistent_updateWatermark (s : State) (w : Time) (h : Consistent s) :
    Consistent (applyOp s (.updateWatermark w)) := by
  obtain ⟨h1, h2, h3⟩ := h
  simp only [applyOp, UpdateWatermark]
  cases hi : isSomethingReadyToFire s.timeKeys w with
  | true =>
    simp only [if_true]
    refine ⟨?_, ?_, h3⟩
    · intro _ hnil
      simp only at hnil
      rw [hnil] at hi
      simp [isSomethingReadyToFire, TimeSortedKeys.GetFirst] at hi
    · intro hr
      simp [State.getReady] at hr
  | false =>
    simp only [Bool.false_eq_true, if_false]
    refine ⟨h1, ?_, h3⟩
    intro _ e he
    exact le_of_lt (isSomethingReadyToFire_false _ _ hi e he)

theorem consistent_pollKeyToFire (s : State) (h : Consistent s) :
    Consistent (applyOp s .pollKeyToFire) := by
  obtain ⟨h1, h2, h3⟩ := h
  simp only [applyOp]
  cases hp : PollKeyToFire s with
  | error e => exact ⟨h1, h2, h3⟩
  | ok r =>
    obtain ⟨key, s1⟩ := r
    obtain ⟨hr, t, hg, hle, rfl⟩ := (pollKeyToFire_ok_iff s s1 key).1 hp
    simp only
    cases hi : isSomethingReadyToFire (TimeSortedKeys.Delete s.timeKeys key t) s.getWatermark with
    | true =>
      simp only [if_true]
      refine ⟨?_, ?_, delete_nodupKeys _ _ _ h3⟩
      · intro _ hnil
        simp only at hnil
        rw [hnil] at hi
        simp [isSomethingReadyToFire, TimeSortedKeys.GetFirst] at hi
      · intro hr1
        simp only [State.getReady] at hr hr1
        rw [hr] at hr1
        cases hr1
    | false =>
      simp only [Bool.false_eq_true, if_false]
      refine ⟨?_, ?_, delete_nodupKeys _ _ _ h3⟩
      · intro hr1
        simp [State.getReady] at hr1
      · intro _ e he
        exact le_of_lt (isSomethingReadyToFire_false _ _ hi e he)

theorem consistent_applyOp (s : State) (op : Op) (h : Consistent s) :
    Consistent (applyOp s op) := by
  cases op with
  | recordReceived key t => exact consistent_recordReceived s key t h
  | updateWatermark w => exact consistent_updateWatermark s w h
  | pollKeyToFire => exact consistent_pollKeyToFire s h

theorem consistent_run (ops : List Op) (s : State) (h : Consistent s) :
    Consistent (run s ops) := by
  induction ops generalizing s with
  | nil => exact h
  | cons op ops ih => exact ih (applyOp s op) (consistent_applyOp s op h)

theorem scheduledTime_of_mem (l : TimeSortedKeys) (key : Value) (t : Time)
    (hnd : (l.map Prod.fst).Nodup) (hm : (key, t) ∈ l) :
    TimeSortedKeys.scheduledTime l key = some t := by
  induction l with
  | nil => simp at hm
  | cons e es ih =>
    obtain ⟨k1, t1⟩ := e
    simp only [List.map_cons, List.nodup_cons] at hnd
    unfold TimeSortedKeys.scheduledTime
    by_cases hk : k1 = key
    · subst hk
      simp only [List.find?_cons, decide_True]
      rcases List.mem_cons.1 hm with h | h
      · simp only [Prod.mk.injEq] at h
        simp [h.2]
      · exact absurd (List.mem_map.2 ⟨(k1, t), h, rfl⟩) hnd.1
    · rcases List.mem_cons.1 hm with h | h
      · simp only [Prod.mk.injEq] at h
        exact absurd h.1.symm hk
      · have := ih hnd.2 h
        unfold TimeSortedKeys.scheduledTime at this
        simpa [List.find?_cons, hk] using this

/-- The poll loop, from any state: the keys it returns are the keys of a list of
entries taken out of the index in non-decreasing order of time, none of them
after the watermark; the entries taken and the entries left make up the index
the loop started from. -/
theorem pollLoop_spec (n : Nat) (s : State) :
    ∃ es : List (Value × Time),
      (pollLoop n s).1 = es.map Prod.fst ∧
      es.Pairwise (fun a b => a.2 ≤ b.2) ∧
      List.Perm (es ++ (pollLoop n s).2.1.timeKeys) s.timeKeys ∧
      (∀ e ∈ es, e.2 ≤ s.getWatermark) ∧
      (pollLoop n s).2.1.getWatermark = s.getWatermark := by
  induction n generalizing s with
  | zero => exact ⟨[], by simp [pollLoop]⟩
  | succ n ih =>
    cases hp : PollKeyToFire s with
    | error e => exact ⟨[], by simp [pollLoop, hp]⟩
    | ok r =>
      obtain ⟨key, s1⟩ := r
      obtain ⟨_, t, hg, hle, hs1⟩ := (pollKeyToFire_ok_iff s s1 key).1 hp
      have hidx : s1.timeKeys = TimeSortedKeys.Delete s.timeKeys key t := by
        rw [hs1]
      have hwm : s1.getWatermark = s.getWatermark := by
        rw [hs1]
        rfl
      obtain ⟨es, h1, h2, h3, h4, h5⟩ := ih s1
      have hmem : (key, t) ∈ s.timeKeys := getFirst_mem _ _ hg
      refine ⟨(key, t) :: es, ?_, ?_, ?_, ?_, ?_⟩
      · simp [pollLoop, hp, h1]
      · refine List.pairwise_cons.2 ⟨?_, h2⟩
        intro e he
        have he1 : e ∈ s1.timeKeys := h3.subset (List.mem_append_left _ he)
        rw [hidx] at he1
        exact getFirst_le _ _ hg e ((delete_sublist _ _ _).subset he1)
      · simp only [pollLoop, hp, List.cons_append]
        rw [hidx] at h3
        exact (List.Perm.cons _ h3).trans (delete_perm _ _ _ hmem)
      · intro e he
        rcases List.mem_cons.1 he with rfl | he
        · exact hle
        · exact hwm ▸ h4 e he
      · simp only [pollLoop, hp]
        rw [h5, hwm]

/-- The poll loop from a state whose ready flag is accurate, with enough calls to
empty the index: it stops on `ErrNoKeyToFire`, and every entry left is after the
watermark. -/
theorem pollLoop_drains (n : Nat) (s : State)
    (hacc : s.getReady = isSomethingReadyToFire s.timeKeys s.getWatermark)
    (hn : s.timeKeys.length < n) :
    (pollLoop n s).2.2 = some Failure.ErrNoKeyToFire ∧
    ∀ e ∈ (pollLoop n s).2.1.timeKeys, s.getWatermark < e.2 := by
  induction n generalizing s with
  | zero => omega
  | succ n ih =>
    cases hr : s.getReady with
    | false =>
      have hp : PollKeyToFire s = .error Failure.ErrNoKeyToFire := by
        simp [PollKeyToFire, hr]
      simp only [pollLoop, hp, true_and]
      exact isSomethingReadyToFire_false _ _ (hacc ▸ hr)
    | true =>
      obtain ⟨m, hg, hle⟩ := (isSomethingReadyToFire_iff _ _).1 (hacc ▸ hr)
      obtain ⟨key, t⟩ := m
      have hp := (pollKeyToFire_ok_iff s _ key).2 ⟨hr, t, hg, hle, rfl⟩
      have hmem : (key, t) ∈ s.timeKeys := getFirst_mem _ _ hg
      simp only [pollLoop, hp]
      refine ih _ ?_ ?_
      · by_cases hi : isSomethingReadyToFire (TimeSortedKeys.Delete s.timeKeys key t)
            s.getWatermark = true
        · simp only [State.getReady, State.getWatermark] at hr hi ⊢
          simp [hi, hr]
        · simp only [State.getReady, State.getWatermark] at hr hi ⊢
          simp [hi]
      · have := (delete_perm _ _ _ hmem).length_eq
        simp only [List.length_cons] at this
        show (TimeSortedKeys.Delete s.timeKeys key t).length < n
        omega

theorem run_append (s : State) (ops1 ops2 : List Op) :
    run s (ops1 ++ ops2) = run (run s ops1) ops2 := by
  simp [run, List.foldl_append]

theorem run_recordReceived (recs acc : List (Value × Time))
    (hkeys : ((acc ++ recs).map Prod.fst).Nodup) (htimes : ∀ e ∈ recs, 0 ≤ e.2) :
    run ⟨none, acc, none⟩ (recs.map (fun e => Op.recordReceived e.1 e.2))
      = ⟨none, acc ++ recs, none⟩ := by
  induction recs generalizing acc with
  | nil => simp [run]
  | cons e es ih =>
    obtain ⟨k, t⟩ := e
    have ht : ¬ (t < 0) := not_lt.2 (htimes (k, t) (List.mem_cons_self _ _))
    have hk : ∀ a ∈ acc, a.1 ≠ k := by
      intro a ha hak
      rw [List.map_append, List.nodup_append] at hkeys
      exact hkeys.2.2 (List.mem_map.2 ⟨a, ha, hak⟩) (by simp)
    have hupd : TimeSortedKeys.Update acc k t = acc ++ [(k, t)] := by
      unfold TimeSortedKeys.Update
      congr 1
      exact List.filter_eq_self.2 (fun a ha => by simpa using hk a ha)
    have hstep : applyOp ⟨none, acc, none⟩ (Op.recordReceived k t)
        = ⟨none, acc ++ [(k, t)], none⟩ := by
      simp [applyOp, RecordReceived, State.getWatermark, ht, hupd]
    simp only [List.map_cons, run, List.foldl_cons]
    rw [hstep]
    have := ih (acc ++ [(k, t)]) (by simpa using hkeys)
      (fun e he => htimes e (List.mem_cons_of_mem _ he))
    simpa [run] using this

/-- C1 (drain completeness): from the empty state, after `RecordReceived(k, t)`
for the entries of `recs` (pairwise distinct keys, no time before the zero time)
and then `UpdateWatermark(w)`, the poll loop (given at least one call more than
there are entries) returns the keys of a list `fired` of entries and stops on
`ErrNoKeyToFire`, where `fired` holds exactly the entries with `t ≤ w`, each
once, in non-decreasing order of time; the index then holds exactly the entries
with `t > w`. -/
theorem pollLoop_drain_completeness (recs : List (Value × Time)) (w : Time) (n : Nat)
    (hkeys : (recs.map Prod.fst).Nodup) (htimes : ∀ e ∈ recs, 0 ≤ e.2)
    (hn : recs.length < n) :
    ∃ (fired : List (Value × Time)) (final : State),
      pollLoop n (run State.empty
          (recs.map (fun e => Op.recordReceived e.1 e.2) ++ [Op.updateWatermark w]))
        = (fired.map Prod.fst, final, some Failure.ErrNoKeyToFire) ∧
      List.Perm fired (recs.filter (fun e => decide (e.2 ≤ w))) ∧
      fired.Pairwise (fun a b => a.2 ≤ b.2) ∧
      List.Perm final.timeKeys (recs.filter (fun e => decide (w < e.2))) := by
  have hrun : run State.empty
      (recs.map (fun e => Op.recordReceived e.1 e.2) ++ [Op.updateWatermark w])
      = ⟨some w, recs, if isSomethingReadyToFire recs w then some true else none⟩ := by
    rw [run_append]
    have h0 := run_recordReceived recs [] (by simpa using hkeys) htimes
    simp only [List.nil_append] at h0
    rw [show State.empty = (⟨none, [], none⟩ : State) from rfl, h0]
    simp only [run, List.foldl_cons, List.foldl_nil, applyOp, UpdateWatermark]
    cases isSomethingReadyToFire recs w <;> simp
  rw [hrun]
  generalize hs : (⟨some w, recs, if isSomethingReadyToFire recs w then some true else none⟩
    : State) = s
  have hidx : s.timeKeys = recs := by rw [← hs]
  have hwm : s.getWatermark = w := by rw [← hs]; rfl
  have hacc : s.getReady = isSomethingReadyToFire s.timeKeys s.getWatermark := by
    rw [hwm, hidx, ← hs]
    cases hi : isSomethingReadyToFire recs w <;> simp [State.getReady]
  obtain ⟨es, h1, h2, h3, h4, _⟩ := pollLoop_spec n s
  obtain ⟨h6, h7⟩ := pollLoop_drains n s hacc (by rw [hidx]; exact hn)
  rw [hwm] at h4 h7
  rw [hidx] at h3
  refine ⟨es, (pollLoop n s).2.1, ?_, ?_, h2, ?_⟩
  · rw [← h1, ← h6]
  · have hp := List.Perm.filter (fun e : Value × Time => decide (e.2 ≤ w)) h3
    rw [List.filter_append] at hp
    have e1 : es.filter (fun e => decide (e.2 ≤ w)) = es :=
      List.filter_eq_self.2 (fun e he => by simpa using h4 e he)
    have e2 : (pollLoop n s).2.1.timeKeys.filter (fun e => decide (e.2 ≤ w)) = [] :=
      List.filter_eq_nil_iff.2 (fun e he => by simpa using h7 e he)
    rw [e1, e2, List.append_nil] at hp
    exact hp
  · have hp := List.Perm.filter (fun e : Value × Time => decide (w < e.2)) h3
    rw [List.filter_append] at hp
    have e1 : es.filter (fun e => decide (w < e.2)) = [] :=
      List.filter_eq_nil_iff.2 (fun e he => by simpa using h4 e he)
    have e2 : (pollLoop n s).2.1.timeKeys.filter (fun e => decide (w < e.2))
        = (pollLoop n s).2.1.timeKeys :=
      List.filter_eq_self.2 (fun e he => by simpa using h7 e he)
    rw [e1, e2, List.nil_append] at hp
    exact hp

/-- Scenario 3 of the spec up to its first poll: `A` at 5, `B` at 8, watermark 6. -/
theorem pollLoop_drain_completeness_witness :
    ∃ (fired : List (Value × Time)) (final : State),
      pollLoop 3 (run State.empty
          ([(Value.string "A", (5 : Time)), (Value.string "B", 8)].map
            (fun e => Op.recordReceived e.1 e.2) ++ [Op.updateWatermark 6]))
        = (fired.map Prod.fst, final, some Failure.ErrNoKeyToFire) ∧
      List.Perm fired ([(Value.string "A", (5 : Time)), (Value.string "B", 8)].filter
        (fun e => decide (e.2 ≤ 6))) ∧
      fired.Pairwise (fun a b => a.2 ≤ b.2) ∧
      List.Perm final.timeKeys ([(Value.string "A", (5 : Time)), (Value.string "B", 8)].filter
        (fun e => decide (6 < e.2))) :=
  pollLoop_drain_completeness [(Value.string "A", 5), (Value.string "B", 8)] 6 3
    (by decide) (by decide) (by decide)

/-- C2 (readiness gating): in every trigger state, when `PollKeyToFire` returns a
key, that key is the first entry of the index, the entry is the one the call
removed, and its time is not after the stored watermark (the zero time when no
watermark is stored); the watermark itself is left as it was. -/
theorem pollKeyToFire_readiness_gating (s s1 : State) (key : Value)
    (h : PollKeyToFire s = .ok (key, s1)) :
    ∃ sendTime,
      TimeSortedKeys.GetFirst s.timeKeys = some (key, sendTime) ∧
      s1.timeKeys = TimeSortedKeys.Delete s.timeKeys key sendTime ∧
      ¬ (s.getWatermark < sendTime) ∧
      s1.watermark = s.watermark := by
  obtain ⟨_, t, hg, hle, rfl⟩ := (pollKeyToFire_ok_iff s s1 key).1 h
  exact ⟨t, hg, rfl, not_lt.2 hle, rfl⟩

/-- The poll of the state with watermark 10 and entries `A` at 10, `B` at 12,
which returns `A`. -/
theorem pollKeyToFire_readiness_gating_witness :
    ∃ sendTime,
      TimeSortedKeys.GetFirst [(Value.string "A", 10), (Value.string "B", 12)]
        = some (Value.string "A", sendTime) ∧
      [(Value.string "B", (12 : Time))] =
        TimeSortedKeys.Delete [(Value.string "A", 10), (Value.string "B", 12)]
          (Value.string "A") sendTime ∧
      ¬ ((10 : Time) < sendTime) ∧ (some 10 : Option Time) = some 10 :=
  pollKeyToFire_readiness_gating
    ⟨some 10, [(Value.string "A", 10), (Value.string "B", 12)], some true⟩
    ⟨some 10, [(Value.string "B", 12)], some false⟩ (Value.string "A") (by decide)

/-- C3 (monotonic firing): in the state reached from the empty state by any
sequence of calls (of `RecordReceived` and `UpdateWatermark` in particular), the
keys that repeated `PollKeyToFire` calls return, with no other call in between,
are all pending keys of that state, and they come out in non-decreasing order of
the time they are scheduled at in that state. -/
theorem pollLoop_monotonic_firing (ops : List Op) (n : Nat) :
    (∀ key ∈ (pollLoop n (run State.empty ops)).1,
      ∃ t, TimeSortedKeys.scheduledTime (run State.empty ops).timeKeys key = some t) ∧
    (pollLoop n (run State.empty ops)).1.Pairwise (fun a b =>
      ∃ ta tb, TimeSortedKeys.scheduledTime (run State.empty ops).timeKeys a = some ta ∧
        TimeSortedKeys.scheduledTime (run State.empty ops).timeKeys b = some tb ∧ ta ≤ tb) := by
  obtain ⟨_, _, hnd⟩ := consistent_run ops State.empty consistent_empty
  generalize run State.empty ops = s at hnd
  obtain ⟨es, h1, h2, h3, _, _⟩ := pollLoop_spec n s
  have hsched : ∀ e ∈ es, TimeSortedKeys.scheduledTime s.timeKeys e.1 = some e.2 := by
    intro e he
    exact scheduledTime_of_mem _ _ _ hnd (h3.subset (List.mem_append_left _ he))
  rw [h1]
  constructor
  · intro key hk
    obtain ⟨e, he, rfl⟩ := List.mem_map.1 hk
    exact ⟨e.2, hsched e he⟩
  · rw [List.pairwise_map]
    refine List.Pairwise.imp_of_mem ?_ h2
    intro a b ha hb hab
    exact ⟨a.2, b.2, hsched a ha, hsched b hb, hab⟩

/-- C4 (late-data drop): in every state, `RecordReceived(key, t)` with `t`
strictly before the stored watermark returns without error and leaves the whole
state (watermark, index, ready flag) as it was; with `t` equal to the watermark
the event is not late: the call returns without error and the index then holds
the entry `(key, t)`, watermark and ready flag unchanged. -/
theorem recordReceived_late_data_drop (s : State) (key : Value) (t : Time) :
    (t < s.getWatermark → RecordReceived s key t = .ok s) ∧
    (t = s.getWatermark →
      ∃ s1, RecordReceived s key t = .ok s1 ∧ (key, t) ∈ s1.timeKeys ∧
        s1.timeKeys = TimeSortedKeys.Update s.timeKeys key t ∧
        s1.watermark = s.watermark ∧ s1.readyToFire = s.readyToFire) := by
  constructor
  · intro h
    simp [RecordReceived, h]
  · intro h
    refine ⟨{ s with timeKeys := TimeSortedKeys.Update s.timeKeys key t }, ?_, ?_, rfl, rfl, rfl⟩
    · simp [RecordReceived, h]
    · exact (mem_update _ _ _ _).2 (Or.inr rfl)

/-- With watermark 10, the event of `A` at 3 is dropped and the event of `A` at 10
is scheduled. -/
theorem recordReceived_late_data_drop_witness :
    RecordReceived ⟨some 10, [(Value.string "B", 12)], none⟩ (Value.string "A") 3
        = .ok ⟨some 10, [(Value.string "B", 12)], none⟩ ∧
    ∃ s1, RecordReceived ⟨some 10, [(Value.string "B", 12)], none⟩ (Value.string "A") 10
        = .ok s1 ∧ (Value.string "A", (10 : Time)) ∈ s1.timeKeys :=
  ⟨(recordReceived_late_data_drop ⟨some 10, [(Value.string "B", 12)], none⟩
      (Value.string "A") 3).1 (by decide),
   by
    obtain ⟨s1, h1, h2, _⟩ :=
      (recordReceived_late_data_drop ⟨some 10, [(Value.string "B", 12)], none⟩
        (Value.string "A") 10).2 (by decide)
    exact ⟨s1, h1, h2⟩⟩

/-- C5 (no-ready signal, empty index): in every state reached from the empty state
by any sequence of `RecordReceived`, `UpdateWatermark` and `PollKeyToFire` calls,
the ready flag is not true while the index is empty, `PollKeyToFire` on an empty
index yields `ErrNoKeyToFire`, and `PollKeyToFire` never ends in the
`panic("unreachable")` of a not-found `GetFirst`. -/
theorem pollKeyToFire_empty_index (ops : List Op) :
    ((run State.empty ops).timeKeys = [] → (run State.empty ops).getReady = false) ∧
    ((run State.empty ops).timeKeys = [] →
      PollKeyToFire (run State.empty ops) = .error Failure.ErrNoKeyToFire) ∧
    PollKeyToFire (run State.empty ops) ≠ .error Failure.unreachableNotFound := by
  obtain ⟨h1, _, _⟩ := consistent_run ops State.empty consistent_empty
  generalize run State.empty ops = s at h1
  have hflag : s.timeKeys = [] → s.getReady = false := by
    intro hnil
    cases hr : s.getReady with
    | false => rfl
    | true => exact absurd hnil (h1 hr)
  refine ⟨hflag, ?_, ?_⟩
  · intro hnil
    simp [PollKeyToFire, hflag hnil]
  · unfold PollKeyToFire
    cases hr : s.getReady with
    | false => simp
    | true =>
      cases hg : TimeSortedKeys.GetFirst s.timeKeys with
      | none => exact absurd ((getFirst_eq_none_iff _).1 hg) (h1 hr)
      | some m =>
        obtain ⟨k, t⟩ := m
        simp only [Bool.not_true, Bool.false_eq_true, if_false]
        split <;> [simp; (split <;> simp)]

/-- C6 (no-ready signal, all pending keys in the future), at the failing trace:
after `RecordReceived(A, 5)`, `UpdateWatermark(5)`, `RecordReceived(A, 10)` the
only pending time, 10, is after the stored watermark 5, the index holds the
single entry the second `Update` replaced the first by, the ready flag is still
true, and `PollKeyToFire` ends in the `panic("unreachable")` guarded by
`watermark.Before(sendTime)` instead of yielding `ErrNoKeyToFire`. -/
theorem pollKeyToFire_stale_ready_flag_panics :
    run State.empty [Op.recordReceived (Value.string "A") 5, Op.updateWatermark 5,
        Op.recordReceived (Value.string "A") 10]
      = ⟨some 5, [(Value.string "A", 10)], some true⟩ ∧
    PollKeyToFire (run State.empty [Op.recordReceived (Value.string "A") 5,
        Op.updateWatermark 5, Op.recordReceived (Value.string "A") 10])
      = .error Failure.unreachableBefore := by
  decide

/-- C7 as stated fails: after `UpdateWatermark(5)` and `RecordReceived(A, 5)` the
index is non-empty and its minimum time 5 is not after the stored watermark 5,
yet the ready flag is not true (`RecordReceived` does not recompute it). -/
theorem ready_flag_iff_counterexample :
    ¬ ((run State.empty [Op.updateWatermark 5, Op.recordReceived (Value.string "A") 5]).getReady
          = true ↔
        ∃ m, TimeSortedKeys.GetFirst
            (run State.empty [Op.updateWatermark 5,
              Op.recordReceived (Value.string "A") 5]).timeKeys = some m ∧
          m.2 ≤ (run State.empty [Op.updateWatermark 5,
              Op.recordReceived (Value.string "A") 5]).getWatermark) := by
  intro h
  have hr := h.2 ⟨(Value.string "A", 5), by decide, by decide⟩
  revert hr
  decide

/-- C7, amended: in every state reached from the empty state by any sequence of
`RecordReceived`, `UpdateWatermark` and `PollKeyToFire` calls, a true ready flag
comes with a non-empty index, and the flag is true whenever the index is
non-empty and its minimum-time entry has a time strictly before the stored
watermark (the zero time when none is stored). -/
theorem ready_flag_invariant (ops : List Op) :
    ((run State.empty ops).getReady = true → (run State.empty ops).timeKeys ≠ []) ∧
    (∀ m, TimeSortedKeys.GetFirst (run State.empty ops).timeKeys = some m →
      m.2 < (run State.empty ops).getWatermark → (run State.empty ops).getReady = true) := by
  obtain ⟨h1, h2, _⟩ := consistent_run ops State.empty consistent_empty
  generalize run State.empty ops = s at h1 h2
  refine ⟨h1, ?_⟩
  intro m hg hlt
  cases hr : s.getReady with
  | true => rfl
  | false => exact absurd (h2 hr m (getFirst_mem _ _ hg)) (not_le.2 hlt)

/-- What `UpdateWatermark` returns and leaves behind. -/
theorem updateWatermark_postcondition_aux (s : State) (w : Time) :
    ∃ s1, UpdateWatermark s w = .ok s1 ∧
      s1.watermark = some w ∧
      s1.timeKeys = s.timeKeys ∧
      ((∃ m, TimeSortedKeys.GetFirst s.timeKeys = some m ∧ m.2 ≤ w) →
        s1.readyToFire = some true) ∧
      (¬ (∃ m, TimeSortedKeys.GetFirst s.timeKeys = some m ∧ m.2 ≤ w) →
        s1.readyToFire = s.readyToFire) ∧
      (s.getReady = true → s1.getReady = true) := by
  unfold UpdateWatermark
  cases hi : isSomethingReadyToFire s.timeKeys w with
  | true =>
    refine ⟨⟨some w, s.timeKeys, some true⟩, by simp [hi], rfl, rfl, fun _ => rfl, ?_, fun _ => rfl⟩
    intro hno
    exact absurd ((isSomethingReadyToFire_iff _ _).1 hi) hno
  | false =>
    refine ⟨⟨some w, s.timeKeys, s.readyToFire⟩, by simp [hi], rfl, rfl, ?_, fun _ => rfl, fun h => h⟩
    intro hyes
    have := (isSomethingReadyToFire_iff _ _).2 hyes
    rw [hi] at this
    cases this

/-- C15 (UpdateWatermark postcondition): for every state and time `w`,
`UpdateWatermark(w)` returns without error; afterwards the stored watermark is
`w`, the index is as it was, the ready flag is true when the index is non-empty
with minimum time not after `w` and keeps its previous value otherwise; a flag
that was true is still true. -/
theorem updateWatermark_postcondition (s : State) (w : Time) :
    ∃ s1, UpdateWatermark s w = .ok s1 ∧
      s1.watermark = some w ∧
      s1.timeKeys = s.timeKeys ∧
      ((∃ m, TimeSortedKeys.GetFirst s.timeKeys = some m ∧ m.2 ≤ w) →
        s1.readyToFire = some true) ∧
      (¬ (∃ m, TimeSortedKeys.GetFirst s.timeKeys = some m ∧ m.2 ≤ w) →
        s1.readyToFire = s.readyToFire) ∧
      (s.getReady = true → s1.getReady = true) :=
  updateWatermark_postcondition_aux s w

/-- C16 (PollKeyToFire postcondition): in every state whose ready flag is true and
whose index has the minimum entry `(k, t)` with `t` not after the watermark,
`PollKeyToFire` returns `k`, takes exactly the entry `(k, t)` out of the index,
leaves the watermark as it was, and afterwards the ready flag is true exactly
when the remaining index is non-empty with minimum time not after the
watermark; in every state whose ready flag is false or absent it yields
`ErrNoKeyToFire` and the state stays as it was. -/
theorem pollKeyToFire_postcondition (s : State) :
    (∀ k t, s.getReady = true → TimeSortedKeys.GetFirst s.timeKeys = some (k, t) →
      t ≤ s.getWatermark →
      ∃ s1, PollKeyToFire s = .ok (k, s1) ∧
        s1.timeKeys = TimeSortedKeys.Delete s.timeKeys k t ∧
        List.Perm ((k, t) :: s1.timeKeys) s.timeKeys ∧
        s1.watermark = s.watermark ∧
        (s1.getReady = true ↔
          ∃ m, TimeSortedKeys.GetFirst s1.timeKeys = some m ∧ m.2 ≤ s1.getWatermark)) ∧
    (s.getReady = false →
      PollKeyToFire s = .error Failure.ErrNoKeyToFire ∧ applyOp s Op.pollKeyToFire = s) := by
  constructor
  · intro k t hr hg hle
    have hp := (pollKeyToFire_ok_iff s _ k).2 ⟨hr, t, hg, hle, rfl⟩
    refine ⟨_, hp, rfl, delete_perm _ _ _ (getFirst_mem _ _ hg), rfl, ?_⟩
    rw [← isSomethingReadyToFire_iff]
    simp only [State.getReady, State.getWatermark] at hr ⊢
    by_cases hi : isSomethingReadyToFire (TimeSortedKeys.Delete s.timeKeys k t)
        (match s.watermark with | some w => w | none => 0) = true
    · simp [hi, hr]
    · simp [hi]
  · intro hr
    have hp : PollKeyToFire s = .error Failure.ErrNoKeyToFire := by
      simp [PollKeyToFire, hr]
    exact ⟨hp, by simp [applyOp, hp]⟩

/-- Scenario 2 of the spec: with `A` at 10 and watermark 10 the poll returns `A`
and resets the flag; the next poll yields `ErrNoKeyToFire`. -/
theorem pollKeyToFire_postcondition_witness :
    (∃ s1, PollKeyToFire ⟨some 10, [(Value.string "A", 10)], some true⟩
        = .ok (Value.string "A", s1) ∧ s1.timeKeys = [] ∧ s1.getReady = false) ∧
    PollKeyToFire ⟨some 10, [], some false⟩ = .error Failure.ErrNoKeyToFire := by
  constructor
  · obtain ⟨s1, h1, h2, _, _, h5⟩ :=
      (pollKeyToFire_postcondition ⟨some 10, [(Value.string "A", 10)], some true⟩).1
        (Value.string "A") 10 (by decide) (by decide) (by decide)
    refine ⟨s1, h1, h2, ?_⟩
    cases hr : s1.getReady with
    | false => rfl
    | true =>
      obtain ⟨m, hm, _⟩ := h5.1 hr
      rw [h2] at hm
      simp [TimeSortedKeys.Delete, TimeSortedKeys.GetFirst] at hm
  · exact ((pollKeyToFire_postcondition ⟨some 10, [], some false⟩).2 (by decide)).1

/-- C17 (RecordReceived postcondition for on-time events): in every state, for
every key and every event time `t` not before the stored watermark,
`RecordReceived(key, t)` returns without error; afterwards the index holds
exactly one entry for `key`, the entry at time `t`, the entries of every other
key are as they were, and watermark and ready flag are unchanged. -/
theorem recordReceived_on_time_postcondition (s : State) (key : Value) (t : Time)
    (h : ¬ (t < s.getWatermark)) :
    ∃ s1, RecordReceived s key t = .ok s1 ∧
      s1.timeKeys.filter (fun e => decide (e.1 = key)) = [(key, t)] ∧
      (∀ k1, k1 ≠ key →
        s1.timeKeys.filter (fun e => decide (e.1 = k1))
          = s.timeKeys.filter (fun e => decide (e.1 = k1))) ∧
      s1.watermark = s.watermark ∧ s1.readyToFire = s.readyToFire := by
  refine ⟨{ s with timeKeys := TimeSortedKeys.Update s.timeKeys key t }, ?_, ?_, ?_, rfl, rfl⟩
  · simp [RecordReceived, h]
  · simp only [TimeSortedKeys.Update, List.filter_append, List.filter_filter]
    have h1 : s.timeKeys.filter (fun e => decide (e.1 = key) && decide (e.1 ≠ key)) = [] :=
      List.filter_eq_nil_iff.2 (fun e _ => by simp)
    rw [h1]
    simp
  · intro k1 hk
    simp only [TimeSortedKeys.Update, List.filter_append, List.filter_filter]
    have h1 : [(key, t)].filter (fun e => decide (e.1 = k1)) = [] :=
      List.filter_eq_nil_iff.2 (fun e he => by
        simp only [List.mem_singleton] at he
        subst he
        simpa using fun h => hk h.symm)
    rw [h1, List.append_nil]
    apply List.filter_congr
    intro e _
    by_cases hek : e.1 = k1
    · simp [hek, hk]
    · simp [hek]

/-- An event of `A` at 12 against watermark 10, with `A` pending at 11: the entry
is replaced. -/
theorem recordReceived_on_time_postcondition_witness :
    ∃ s1, RecordReceived ⟨some 10, [(Value.string "A", 11), (Value.string "B", 12)], none⟩
        (Value.string "A") 12 = .ok s1 ∧
      s1.timeKeys.filter (fun e => decide (e.1 = Value.string "A")) = [(Value.string "A", 12)] := by
  obtain ⟨s1, h1, h2, _⟩ := recordReceived_on_time_postcondition
    ⟨some 10, [(Value.string "A", 11), (Value.string "B", 12)], none⟩ (Value.string "A") 12
    (by decide)
  exact ⟨s1, h1, h2⟩

theorem traceInv_recordReceived (s : State) (ops : List Op) (l : Time) (key : Value)
    (t : Time) (h : TraceInv s (Op.recordReceived key t :: ops) l) :
    TraceInv (applyOp s (Op.recordReceived key t)) ops l := by
  obtain ⟨h1, h2, h3, h4, h5, h6, h7⟩ := h
  simp only [watermarksOf] at h4 h5 h6
  simp only [applyOp, RecordReceived]
  by_cases hl : t < s.getWatermark
  · simp only [hl, if_true]
    exact ⟨h1, h2, h3, h4, h5, h6, h7⟩
  · simp only [hl, if_false]
    refine ⟨update_nodupKeys _ _ _ h1, ?_, h3, h4, h5, h6, h7⟩
    intro e he
    rcases (mem_update _ _ _ _).1 he with ⟨hm, _⟩ | rfl
    · exact h2 e hm
    · exact le_trans h3 (not_lt.1 hl)

theorem traceInv_updateWatermark (s : State) (ops : List Op) (l : Time) (w : Time)
    (h : TraceInv s (Op.updateWatermark w :: ops) l) :
    TraceInv (applyOp s (Op.updateWatermark w)) ops l := by
  obtain ⟨h1, h2, _, h4, _, h6, _⟩ := h
  simp only [watermarksOf, List.mem_cons, forall_eq_or_imp, List.pairwise_cons] at h4 h6
  obtain ⟨s1, hs1, hw, hidx, _, _, _⟩ := updateWatermark_postcondition_aux s w
  simp only [applyOp, hs1]
  refine ⟨hidx ▸ h1, hidx ▸ h2, ?_, h4.2, ?_, h6.2, fun _ => ⟨w, hw⟩⟩
  · simp only [State.getWatermark, hw]
    exact h4.1
  · intro w0 hw0 w1 hw1
    rw [hw] at hw0
    cases hw0
    exact h6.1 w1 hw1

theorem firedLog_sorted (ops : List Op) (s : State) (l : Time) (h : TraceInv s ops l) :
    ∃ ts : List Time,
      (firedLog s ops).map Prod.snd = ts.map some ∧
      ts.Pairwise (fun a b => a ≤ b) ∧ ∀ t ∈ ts, l ≤ t := by
  induction ops generalizing s l with
  | nil => exact ⟨[], by simp [firedLog]⟩
  | cons op ops ih =>
    cases op with
    | recordReceived key t =>
      simp only [firedLog]
      exact ih _ l (traceInv_recordReceived s ops l key t h)
    | updateWatermark w =>
      simp only [firedLog]
      exact ih _ l (traceInv_updateWatermark s ops l w h)
    | pollKeyToFire =>
      obtain ⟨h1, h2, h3, h4, h5, h6, h7⟩ := h
      simp only [watermarksOf] at h4 h5 h6
      cases hp : PollKeyToFire s with
      | error e =>
        simp only [firedLog, hp]
        exact ih s l ⟨h1, h2, h3, h4, h5, h6, h7⟩
      | ok r =>
        obtain ⟨key, s1⟩ := r
        obtain ⟨hr, t, hg, hle, hs1⟩ := (pollKeyToFire_ok_iff s s1 key).1 hp
        have hmem : (key, t) ∈ s.timeKeys := getFirst_mem _ _ hg
        have hsched := scheduledTime_of_mem _ _ _ h1 hmem
        obtain ⟨w0, hw0⟩ := h7 hr
        have hgw : s.getWatermark = w0 := by simp [State.getWatermark, hw0]
        have hidx : s1.timeKeys = TimeSortedKeys.Delete s.timeKeys key t := by rw [hs1]
        have hwm : s1.watermark = s.watermark := by rw [hs1]
        have hinv : TraceInv s1 ops t := by
          refine ⟨hidx ▸ delete_nodupKeys _ _ _ h1, ?_, ?_, ?_, ?_, h6, fun _ => ⟨w0, hwm ▸ hw0⟩⟩
          · intro e he
            rw [hidx] at he
            exact getFirst_le _ _ hg e ((delete_sublist _ _ _).subset he)
          · simp only [State.getWatermark, hwm]
            exact hle
          · intro w hw
            exact le_trans (hgw ▸ hle) (h5 w0 hw0 w hw)
          · intro w1 hw1
            rw [hwm] at hw1
            exact h5 w1 hw1
        obtain ⟨ts, e1, e2, e3⟩ := ih s1 t hinv
        refine ⟨t :: ts, ?_, List.pairwise_cons.2 ⟨e3, e2⟩, ?_⟩
        · simp only [firedLog, hp, List.map_cons, hsched, e1]
        · intro x hx
          rcases List.mem_cons.1 hx with rfl | hx
          · exact h2 (key, x) hmem
          · exact le_trans (h2 (key, t) hmem) (e3 x hx)

theorem exists_lower_bound (ws : List Time) : ∃ l : Time, l ≤ 0 ∧ ∀ w ∈ ws, l ≤ w := by
  induction ws with
  | nil => exact ⟨0, le_refl _, by simp⟩
  | cons w ws ih =>
    obtain ⟨l, h0, hl⟩ := ih
    refine ⟨min l w, le_trans (min_le_left _ _) h0, ?_⟩
    intro x hx
    rcases List.mem_cons.1 hx with rfl | hx
    · exact min_le_right _ _
    · exact le_trans (min_le_left _ _) (hl x hx)

/-- C20 (firing order across the whole trace): for every sequence of
`RecordReceived`, `UpdateWatermark` and `PollKeyToFire` calls from the empty state
in which the watermarks passed to `UpdateWatermark` are non-decreasing, every
key a `PollKeyToFire` call returns has a scheduled time, and these times are
non-decreasing over the whole sequence of calls. -/
theorem firedLog_firing_order (ops : List Op)
    (hw : (watermarksOf ops).Pairwise (fun a b => a ≤ b)) :
    ∃ ts : List Time,
      (firedLog State.empty ops).map Prod.snd = ts.map some ∧
      ts.Pairwise (fun a b => a ≤ b) := by
  obtain ⟨l, h0, hl⟩ := exists_lower_bound (watermarksOf ops)
  have hinv : TraceInv State.empty ops l := by
    refine ⟨by simp [State.empty], by simp [State.empty], h0, hl, ?_, hw, ?_⟩
    · intro w0 hw0
      simp [State.empty] at hw0
    · intro hr
      simp [State.empty, State.getReady] at hr
  obtain ⟨ts, e1, e2, _⟩ := firedLog_sorted ops State.empty l hinv
  exact ⟨ts, e1, e2⟩

/-- Scenario 3 of the spec with its polls: `A` at 5, `B` at 8, watermark 6, poll,
watermark 9, poll. -/
theorem firedLog_firing_order_witness :
    ∃ ts : List Time,
      (firedLog State.empty [Op.recordReceived (Value.string "A") 5,
        Op.recordReceived (Value.string "B") 8, Op.updateWatermark 6, Op.pollKeyToFire,
        Op.updateWatermark 9, Op.pollKeyToFire]).map Prod.snd = ts.map some ∧
      ts.Pairwise (fun a b => a ≤ b) :=
  firedLog_firing_order [Op.recordReceived (Value.string "A") 5,
    Op.recordReceived (Value.string "B") 8, Op.updateWatermark 6, Op.pollKeyToFire,
    Op.updateWatermark 9, Op.pollKeyToFire] (by decide)

end trigger

/-! ## Changelog records -/

namespace execution

open octosql

theorem foldl_apply_fieldNames (opts : List RecordOption) (r : Record) :
    (opts.foldl RecordOption.apply r).fieldNames = r.fieldNames ∧
    (opts.foldl RecordOption.apply r).data = r.data := by
  induction opts generalizing r with
  | nil => exact ⟨rfl, rfl⟩
  | cons o os ih =>
    simp only [List.foldl_cons]
    obtain ⟨h1, h2⟩ := ih (RecordOption.apply r o)
    rw [h1, h2]
    cases o <;> exact ⟨rfl, rfl⟩

theorem lookupField_map (field : VariableName) (data : VariableName → Value)
    (fields : List VariableName) (h : field ∈ fields) :
    lookupField field fields (fields.map (fun f => data f)) = .ok (data field) := by
  induction fields with
  | nil => simp at h
  | cons n ns ih =>
    simp only [List.map_cons, lookupField]
    by_cases hn : n = field
    · simp [hn]
    · simp only [hn, if_false]
      rcases List.mem_cons.1 h with h | h
      · exact absurd h.symm hn
      · exact ih h

/-- Reading a physical field of a freshly built record: one call of `Value`, the
mapped value back. -/
theorem value_newRecord_physical (fields : List VariableName) (data : VariableName → Value)
    (opts : List RecordOption) (f : VariableName) (depth : Nat)
    (hf : f ∈ fields) (hsys : f.Source ≠ "sys") :
    Record.Value (depth + 1) (NewRecord fields data opts) f = .ok (data f) := by
  obtain ⟨h1, h2⟩ := foldl_apply_fieldNames opts
    ⟨⟨⟨""⟩, false, ⟨""⟩⟩, fields, fields.map (fun f => data f)⟩
  simp only [Record.Value, hsys, if_false, NewRecord, NewRecordFromSlice]
  rw [h1, h2]
  exact lookupField_map f data fields hf

/-- C8 as stated fails: the record built from the one field `sys.undo` mapped to
the integer 7 reads back the boolean undo flag for that field, not 7, whatever
the budget of the call. -/
theorem newRecord_round_trip_counterexample :
    Record.Value 1 (NewRecord [NewVariableName "sys.undo"] (fun _ => MakeInt 7) [])
        (NewVariableName "sys.undo") = .ok (MakeBool false) ∧
    ¬ ∃ depth, Record.Value depth (NewRecord [NewVariableName "sys.undo"] (fun _ => MakeInt 7) [])
        (NewVariableName "sys.undo") = .ok ((fun _ => MakeInt 7) (NewVariableName "sys.undo")) := by
  refine ⟨by decide, ?_⟩
  rintro ⟨depth, h⟩
  cases depth with
  | zero => simp [Record.Value] at h
  | succ d =>
    have h1 : (NewVariableName "sys.undo").Source = "sys" := by decide
    have h2 : (NewVariableName "sys.undo").Name = "undo" := by decide
    simp [Record.Value, h1, h2, MakeBool, MakeInt] at h

/-- C8, amended: for every list of field identifiers, every field-to-value
mapping and every list of options, the record `NewRecord(fields, mapping, opts)`
returns `mapping[f]` from `Value(f)` for every `f` in `fields` whose source is
not `sys` (one call of `Value`, no nested call). -/
theorem newRecord_round_trip (fields : List VariableName) (data : VariableName → Value)
    (opts : List RecordOption) (f : VariableName) (depth : Nat)
    (hf : f ∈ fields) (hsys : f.Source ≠ "sys") :
    Record.Value (depth + 1) (NewRecord fields data opts) f = .ok (data f) :=
  value_newRecord_physical fields data opts f depth hf hsys

/-- The round trip on the record `{a: 1, b: 2}` with the undo flag set, read at
`b`. -/
theorem newRecord_round_trip_witness :
    Record.Value 1
        (NewRecord [NewVariableName "a", NewVariableName "b"]
          (fun f => if f = NewVariableName "a" then MakeInt 1 else MakeInt 2)
          [RecordOption.WithUndo])
        (NewVariableName "b")
      = .ok ((fun f => if f = NewVariableName "a" then MakeInt 1 else MakeInt 2)
          (NewVariableName "b")) :=
  newRecord_round_trip [NewVariableName "a", NewVariableName "b"]
    (fun f => if f = NewVariableName "a" then MakeInt 1 else MakeInt 2)
    [RecordOption.WithUndo] (NewVariableName "b") 0 (by decide) (by decide)

/-- C9 (field enumeration): for every record, `Fields()` is the physical field
names in their stored order, then `sys.event_time` exactly when the event-time
designator is not the empty string, then `sys.undo` exactly when the undo flag
is set; its length is `len(fieldNames)` plus the number of those two that are
set. -/
theorem fields_enumeration (r : Record) :
    r.Fields =
      r.fieldNames.map Field.mk
        ++ (if r.metadata.eventTimeField.String ≠ "" then
              [Field.mk (NewVariableName "sys.event_time")] else [])
        ++ (if r.metadata.undo = true then [Field.mk (NewVariableName "sys.undo")] else []) ∧
    r.Fields.length =
      r.fieldNames.length
        + (if r.metadata.eventTimeField.String ≠ "" then 1 else 0)
        + (if r.metadata.undo = true then 1 else 0) := by
  have hlen : r.metadata.eventTimeField.String.length ≠ 0
      ↔ r.metadata.eventTimeField.String ≠ "" := by
    rw [not_iff_not]
    constructor
    · intro h
      exact String.ext (List.length_eq_zero.1 h)
    · intro h
      rw [h]
      rfl
  unfold Record.Fields Record.IsUndo
  by_cases he : r.metadata.eventTimeField.String ≠ "" <;>
    cases hu : r.metadata.undo <;>
    simp [he, hlen.2, hlen, hu]

/-- A record whose event-time designator is `sys.event_time` itself: `Value` of
`sys.event_time` calls `EventTime`, which calls `Value` of `sys.event_time`
again, at every depth; no budget is enough for the call to return. -/
theorem value_event_time_self_referential (r : Record)
    (h : r.metadata.eventTimeField = NewVariableName "sys.event_time") (depth : Nat) :
    Record.Value depth r (NewVariableName "sys.event_time") = .error Fault.depthExceeded ∧
    Record.EventTime depth r = .error Fault.depthExceeded := by
  have h1 : (NewVariableName "sys.event_time").Source = "sys" := by decide
  have h2 : (NewVariableName "sys.event_time").Name ≠ "undo" := by decide
  have h3 : (NewVariableName "sys.event_time").Name = "event_time" := by decide
  induction depth with
  | zero => simp [Record.Value, Record.EventTime]
  | succ d ih =>
    constructor
    · simp only [Record.Value, h1, h2, h3, if_true, if_false]
      exact ih.2
    · simp only [Record.EventTime, h]
      exact ih.1

theorem lookupField_ok (field : VariableName) (names : List VariableName) (data : List Value)
    (h : names.length ≤ data.length) : ∃ v, lookupField field names data = .ok v := by
  induction names generalizing data with
  | nil => exact ⟨MakeNull, by simp [lookupField]⟩
  | cons n ns ih =>
    cases data with
    | nil => simp at h
    | cons d ds =>
      simp only [lookupField]
      by_cases hn : n = field
      · exact ⟨d, by simp [hn]⟩
      · simp only [hn, if_false]
        exact ih ds (by simpa using h)

/-- `Value` returns, within two nested calls, on every record whose data is as
long as its field names and whose event-time designator is not `sys.event_time`
itself. -/
theorem value_ok (r : Record) (hlen : r.fieldNames.length = r.data.length)
    (hself : ¬ (r.metadata.eventTimeField.Source = "sys" ∧
      r.metadata.eventTimeField.Name = "event_time"))
    (field : VariableName) (depth : Nat) :
    ∃ v, Record.Value (depth + 3) r field = .ok v := by
  have hphys : ∀ f, ∃ v, lookupField f r.fieldNames r.data = .ok v :=
    fun f => lookupField_ok f _ _ (le_of_eq hlen)
  simp only [Record.Value, Record.EventTime]
  by_cases h1 : field.Source = "sys"
  · simp only [h1, if_true]
    by_cases h2 : field.Name = "undo"
    · simp only [h2, if_true]
      exact ⟨_, rfl⟩
    · simp only [h2, if_false]
      by_cases h3 : field.Name = "event_time"
      · simp only [h3, if_true]
        by_cases h4 : r.metadata.eventTimeField.Source = "sys"
        · simp only [h4, if_true]
          by_cases h5 : r.metadata.eventTimeField.Name = "undo"
          · simp only [h5, if_true]
            exact ⟨_, rfl⟩
          · have h6 : r.metadata.eventTimeField.Name ≠ "event_time" := fun h => hself ⟨h4, h⟩
            simp only [h5, h6, if_false]
            exact ⟨_, rfl⟩
        · simp only [h4, if_false]
          exact hphys _
      · simp only [h3, if_false]
        exact ⟨_, rfl⟩
  · simp only [h1, if_false]
    exact hphys _

/-- `Value` does not read the identity token. -/
theorem value_id_irrelevant (ida idb : ID) (u : Bool) (e : VariableName)
    (names : List VariableName) (data : List Value) (depth : Nat) :
    (∀ field, Record.Value depth ⟨⟨ida, u, e⟩, names, data⟩ field
      = Record.Value depth ⟨⟨idb, u, e⟩, names, data⟩ field) ∧
    Record.EventTime depth ⟨⟨ida, u, e⟩, names, data⟩
      = Record.EventTime depth ⟨⟨idb, u, e⟩, names, data⟩ := by
  induction depth with
  | zero => simp [Record.Value, Record.EventTime]
  | succ d ih =>
    constructor
    · intro field
      simp only [Record.Value, Record.IsUndo, ih.2]
    · simp only [Record.EventTime]
      exact ih.1 e

theorem equalLoop_same (areEqual : Value → Value → Bool) (hrefl : ∀ v, areEqual v v = true)
    (depth : Nat) (a b : Record) (fs : List Field)
    (h : ∀ f ∈ fs, ∃ v, Record.Value depth a f.Name = .ok v ∧
      Record.Value depth b f.Name = .ok v) :
    equalLoop areEqual depth a b fs fs = .ok true := by
  induction fs with
  | nil => simp [equalLoop]
  | cons f fs ih =>
    obtain ⟨v, h1, h2⟩ := h f (List.mem_cons_self _ _)
    simp only [equalLoop, ne_eq, not_true_eq_false, if_false, h1, h2, hrefl, Bool.not_true,
      Bool.false_eq_true]
    exact ih (fun g hg => h g (List.mem_cons_of_mem _ hg))

/-- Where `Equal` does hold for records that differ in their IDs only: same field
names, same data (as long as the field names), same undo flag, same event-time
designator, the designator not being `sys.event_time` itself, and `AreEqual`
reflexive. -/
theorem equal_of_same_content (areEqual : Value → Value → Bool)
    (hrefl : ∀ v, areEqual v v = true) (a b : Record)
    (hn : a.fieldNames = b.fieldNames) (hd : a.data = b.data)
    (hlen : a.fieldNames.length = a.data.length)
    (hu : a.metadata.undo = b.metadata.undo)
    (he : a.metadata.eventTimeField = b.metadata.eventTimeField)
    (hself : ¬ (a.metadata.eventTimeField.Source = "sys" ∧
      a.metadata.eventTimeField.Name = "event_time"))
    (depth : Nat) :
    Record.Equal areEqual (depth + 3) a b = .ok true := by
  obtain ⟨⟨ida, ua, ea⟩, na, da⟩ := a
  obtain ⟨⟨idb, ub, eb⟩, nb, db⟩ := b
  simp only at hn hd hu he hlen hself
  subst hn hd hu he
  have hf : Record.Fields ⟨⟨ida, ua, ea⟩, na, da⟩ = Record.Fields ⟨⟨idb, ua, ea⟩, na, da⟩ := rfl
  have hloop : equalLoop areEqual (depth + 3) ⟨⟨ida, ua, ea⟩, na, da⟩ ⟨⟨idb, ua, ea⟩, na, da⟩
      (Record.Fields ⟨⟨idb, ua, ea⟩, na, da⟩) (Record.Fields ⟨⟨idb, ua, ea⟩, na, da⟩)
      = .ok true := by
    apply equalLoop_same areEqual hrefl
    intro f _
    obtain ⟨v, hv⟩ := value_ok ⟨⟨ida, ua, ea⟩, na, da⟩ hlen hself f.Name depth
    exact ⟨v, hv, (value_id_irrelevant ida idb ua ea na da (depth + 3)).1 f.Name ▸ hv⟩
  unfold Record.Equal
  simp only [hf, hloop, ne_eq, not_true_eq_false, if_false]

/-- Two records `{a: 1}` built with different IDs are equal. -/
theorem equal_of_same_content_example :
    Record.Equal (fun a b => decide (a = b)) 3
      (NewRecord [NewVariableName "a"] (fun _ => MakeInt 1) [RecordOption.WithID (NewID "x")])
      (NewRecord [NewVariableName "a"] (fun _ => MakeInt 1) [RecordOption.WithID (NewID "y")])
      = .ok true :=
  equal_of_same_content (fun a b => decide (a = b)) (by simp) _ _ rfl rfl rfl rfl rfl
    (by decide) 0

/-- C10 (Equal is reflexive), at the failing input: for the record with the one
field `ts` (value 100) and the event-time designator `sys.event_time`, and with
`AreEqual` taken as equality of values (which is reflexive), `r.Equal(r)` does
not return `true`: the call `r.Value(sys.event_time)` it makes for the second
entry of `Fields()` never returns, whatever the depth allowed. -/
theorem equal_not_reflexive_self_referential (depth : Nat) :
    Record.Equal (fun a b => decide (a = b)) depth
      (NewRecord [NewVariableName "ts"] (fun _ => MakeInt 100)
        [RecordOption.WithEventTimeField (NewVariableName "sys.event_time")])
      (NewRecord [NewVariableName "ts"] (fun _ => MakeInt 100)
        [RecordOption.WithEventTimeField (NewVariableName "sys.event_time")])
      = .error Fault.depthExceeded := by
  have hv := (value_event_time_self_referential
    (NewRecord [NewVariableName "ts"] (fun _ => MakeInt 100)
      [RecordOption.WithEventTimeField (NewVariableName "sys.event_time")]) rfl depth).1
  have hfields : (NewRecord [NewVariableName "ts"] (fun _ => MakeInt 100)
      [RecordOption.WithEventTimeField (NewVariableName "sys.event_time")]).Fields
      = [Field.mk (NewVariableName "ts"), Field.mk (NewVariableName "sys.event_time")] := by
    decide
  unfold Record.Equal
  simp only [hfields, ne_eq, not_true_eq_false, if_false, equalLoop, hv]
  cases depth with
  | zero => simp [Record.Value]
  | succ d =>
    have hts : Record.Value (d + 1) (NewRecord [NewVariableName "ts"] (fun _ => MakeInt 100)
        [RecordOption.WithEventTimeField (NewVariableName "sys.event_time")])
        (NewVariableName "ts") = .ok (MakeInt 100) :=
      value_newRecord_physical _ _ _ _ d (by decide) (by decide)
    simp [hts]

/-- A call of `Value` or `EventTime` that returns a value within some depth
returns the same value within any greater depth. -/
theorem value_mono (r : Record) (depth : Nat) :
    (∀ field v, Record.Value depth r field = .ok v → Record.Value (depth + 1) r field = .ok v) ∧
    (∀ v, Record.EventTime depth r = .ok v → Record.EventTime (depth + 1) r = .ok v) := by
  induction depth with
  | zero => simp [Record.Value, Record.EventTime]
  | succ d ih =>
    constructor
    · intro field v h
      simp only [Record.Value] at h ⊢
      by_cases h1 : field.Source = "sys"
      · simp only [h1, if_true] at h ⊢
        by_cases h2 : field.Name = "undo"
        · simp only [h2, if_true] at h ⊢
          exact h
        · simp only [h2, if_false] at h ⊢
          by_cases h3 : field.Name = "event_time"
          · simp only [h3, if_true] at h ⊢
            exact ih.2 v h
          · simp only [h3, if_false] at h ⊢
            exact h
      · simp only [h1, if_false] at h ⊢
        exact h
    · intro v h
      simp only [Record.EventTime] at h ⊢
      exact ih.1 _ v h

theorem value_mono_add (r : Record) (depth k : Nat) (field : VariableName) (v : Value)
    (h : Record.Value depth r field = .ok v) : Record.Value (depth + k) r field = .ok v := by
  induction k with
  | zero => exact h
  | succ k ih => exact (value_mono r (depth + k)).1 field v ih

/-- The physical field names are determined by `Fields()` and the metadata. -/
theorem fieldNames_eq_of_fields_eq (a b : Record) (hf : a.Fields = b.Fields)
    (he : a.metadata.eventTimeField = b.metadata.eventTimeField)
    (hu : a.metadata.undo = b.metadata.undo) : a.fieldNames = b.fieldNames := by
  have hinj : Function.Injective Field.mk := fun x y h => by cases h; rfl
  unfold Record.Fields Record.IsUndo at hf
  rw [he, hu] at hf
  by_cases h1 : b.metadata.eventTimeField.String.length = 0 <;>
    cases h2 : b.metadata.undo <;>
    simp only [h1, h2, ne_eq, not_true_eq_false, not_false_eq_true, if_true, if_false,
      Bool.false_eq_true, List.append_cancel_right_eq] at hf <;>
    exact List.map_injective_iff.2 hinj hf

/-- The loop of `Equal` on two field lists of the same length ends in `true`
exactly when the lists are the same and every field has a value in both records
that `AreEqual` accepts. -/
theorem equalLoop_eq_true_iff (areEqual : Value → Value → Bool) (depth : Nat) (a b : Record)
    (fs gs : List Field) (hlen : fs.length = gs.length) :
    equalLoop areEqual depth a b fs gs = .ok true ↔
      fs = gs ∧ ∀ f ∈ fs, ∃ x y, Record.Value depth a f.Name = .ok x ∧
        Record.Value depth b f.Name = .ok y ∧ areEqual x y = true := by
  induction fs generalizing gs with
  | nil =>
    cases gs with
    | nil => simp [equalLoop]
    | cons g gs => simp at hlen
  | cons f fs ih =>
    cases gs with
    | nil => simp at hlen
    | cons g gs =>
      have hlen1 : fs.length = gs.length := by simpa using hlen
      simp only [equalLoop]
      by_cases hfg : f = g
      · subst hfg
        simp only [ne_eq, not_true_eq_false, if_false, List.cons.injEq, true_and,
          List.mem_cons, forall_eq_or_imp]
        cases hx : Record.Value depth a f.Name with
        | error e => simp
        | ok x =>
          cases hy : Record.Value depth b f.Name with
          | error e => simp
          | ok y =>
            cases hxy : areEqual x y with
            | false => simp [hxy]
            | true =>
              simp only [hxy, Bool.not_true, Bool.false_eq_true, if_false]
              rw [ih gs hlen1]
              constructor
              · rintro ⟨h1, h2⟩
                exact ⟨h1, ⟨x, y, rfl, rfl, hxy⟩, h2⟩
              · rintro ⟨h1, _, h2⟩
                exact ⟨h1, h2⟩
      · simp [hfg]

/-- The loop of `Equal` returns when every call of `Value` it makes does. -/
theorem equalLoop_total (areEqual : Value → Value → Bool) (depth : Nat) (a b : Record)
    (ha : ∀ f, ∃ v, Record.Value depth a f = .ok v)
    (hb : ∀ f, ∃ v, Record.Value depth b f = .ok v) (fs gs : List Field) :
    ∃ res, equalLoop areEqual depth a b fs gs = .ok res := by
  induction fs generalizing gs with
  | nil => exact ⟨true, by simp [equalLoop]⟩
  | cons f fs ih =>
    cases gs with
    | nil => exact ⟨true, by simp [equalLoop]⟩
    | cons g gs =>
      simp only [equalLoop]
      by_cases hfg : f = g
      · obtain ⟨x, hx⟩ := ha f.Name
        obtain ⟨y, hy⟩ := hb f.Name
        simp only [hfg, ne_eq, not_true_eq_false, if_false]
        rw [← hfg, hx, hy]
        cases hxy : areEqual x y with
        | false => exact ⟨false, by simp [hxy]⟩
        | true =>
          simp only [hxy, Bool.not_true, Bool.false_eq_true, if_false]
          exact ih gs
      · exact ⟨false, by simp [hfg]⟩

/-- When `Equal` returns `true`. -/
theorem equal_eq_true_iff (areEqual : Value → Value → Bool) (depth : Nat) (a b : Record) :
    Record.Equal areEqual depth a b = .ok true ↔
      a.Fields = b.Fields ∧
      (∀ f ∈ a.Fields, ∃ x y, Record.Value depth a f.Name = .ok x ∧
        Record.Value depth b f.Name = .ok y ∧ areEqual x y = true) ∧
      a.metadata.eventTimeField = b.metadata.eventTimeField ∧
      a.metadata.undo = b.metadata.undo := by
  have hstr : a.metadata.eventTimeField.String = b.metadata.eventTimeField.String ↔
      a.metadata.eventTimeField = b.metadata.eventTimeField := by
    constructor
    · intro h
      cases hx : a.metadata.eventTimeField
      cases hy : b.metadata.eventTimeField
      rw [hx, hy] at h
      simp only [VariableName.String] at h
      rw [h]
    · intro h
      rw [h]
  unfold Record.Equal
  by_cases hl : a.Fields.length = b.Fields.length
  · have hiff := equalLoop_eq_true_iff areEqual depth a b a.Fields b.Fields hl
    simp only [hl, ne_eq, not_true_eq_false, if_false]
    cases hloop : equalLoop areEqual depth a b a.Fields b.Fields with
    | error e =>
      rw [hloop] at hiff
      constructor
      · intro h
        cases h
      · rintro ⟨h1, h2, _⟩
        exact absurd (hiff.2 ⟨h1, h2⟩) (by simp)
    | ok res =>
      cases res with
      | false =>
        rw [hloop] at hiff
        constructor
        · intro h
          simp at h
        · rintro ⟨h1, h2, _⟩
          exact absurd (hiff.2 ⟨h1, h2⟩) (by simp)
      | true =>
        rw [hloop] at hiff
        obtain ⟨h1, h2⟩ := hiff.1 rfl
        by_cases he : a.metadata.eventTimeField.String = b.metadata.eventTimeField.String
        · by_cases hu : a.metadata.undo = b.metadata.undo
          · constructor
            · intro _
              exact ⟨h1, h2, hstr.1 he, hu⟩
            · intro _
              simp [he, hu]
          · constructor
            · intro h
              simp [he, hu] at h
            · rintro ⟨_, _, _, h⟩
              exact absurd h hu
        · constructor
          · intro h
            simp [he] at h
          · rintro ⟨_, _, h, _⟩
            exact absurd (hstr.2 h) he
  · simp only [hl, ne_eq, not_false_eq_true, if_true]
    constructor
    · intro h
      simp at h
    · rintro ⟨h1, _⟩
      exact absurd (by rw [h1]) hl

/-- `Equal` returns when every call of `Value` on the two records does. -/
theorem equal_total (areEqual : Value → Value → Bool) (depth : Nat) (a b : Record)
    (ha : ∀ f, ∃ v, Record.Value depth a f = .ok v)
    (hb : ∀ f, ∃ v, Record.Value depth b f = .ok v) :
    ∃ res, Record.Equal areEqual depth a b = .ok res := by
  unfold Record.Equal
  by_cases hl : a.Fields.length = b.Fields.length
  · simp only [hl, ne_eq, not_true_eq_false, if_false]
    obtain ⟨res, hres⟩ := equalLoop_total areEqual depth a b ha hb a.Fields b.Fields
    rw [hres]
    cases res with
    | false => exact ⟨false, rfl⟩
    | true =>
      simp only
      split
      · exact ⟨false, rfl⟩
      · split
        · exact ⟨false, rfl⟩
        · exact ⟨true, rfl⟩
  · exact ⟨false, by simp [hl]⟩

/-- The loop of `Value` returns the data at the first position of the name. -/
theorem lookupField_first (n : VariableName) (names : List VariableName) (data : List Value)
    (i : Nat) (x : Value) (hn : names[i]? = some n)
    (hfirst : ∀ j, j < i → names[j]? ≠ some n) (hx : data[i]? = some x) :
    lookupField n names data = .ok x := by
  induction names generalizing data i with
  | nil => simp at hn
  | cons m ms ih =>
    cases i with
    | zero =>
      simp only [List.getElem?_cons_zero, Option.some.injEq] at hn
      cases data with
      | nil => simp at hx
      | cons d ds =>
        simp only [List.getElem?_cons_zero, Option.some.injEq] at hx
        simp [lookupField, hn, hx]
    | succ i =>
      have hm : m ≠ n := by
        intro h
        exact hfirst 0 (Nat.succ_pos i) (by simp [h])
      cases data with
      | nil => simp at hx
      | cons d ds =>
        simp only [List.getElem?_cons_succ] at hn hx
        simp only [lookupField, hm, if_false]
        refine ih ds i hn ?_ hx
        intro j hj
        have := hfirst (j + 1) (Nat.succ_lt_succ hj)
        simpa using this

/-- C11 as stated fails, twice: two records whose one physical field is named
`sys.x`, with data 1 and 2, are `Equal`, since `Value` resolves `sys.x` as a
virtual field (null) in both; and two records with the field names `x, x`, with
data `1, 2` and `1, 3`, are `Equal`, since `Value` reads the first `x` only.
`AreEqual` is equality of values here. -/
theorem equal_detects_difference_counterexample :
    Record.Equal (fun a b => decide (a = b)) 3
        (NewRecordFromSlice [NewVariableName "sys.x"] [MakeInt 1] [])
        (NewRecordFromSlice [NewVariableName "sys.x"] [MakeInt 2] []) = .ok true ∧
    Record.Equal (fun a b => decide (a = b)) 3
        (NewRecordFromSlice [NewVariableName "x", NewVariableName "x"] [MakeInt 1, MakeInt 2] [])
        (NewRecordFromSlice [NewVariableName "x", NewVariableName "x"] [MakeInt 1, MakeInt 3] [])
      = .ok true := by
  decide

/-- C11, amended: for every two records `a` and `b` (each with
`len(fieldNames) = len(data)`, neither with the event-time designator
`sys.event_time`), and `AreEqual` true on equal values only: if they differ in
the undo flag, or in the event-time designator, or in the value stored at a
physical position of `a` whose field name has a source other than `sys` and does
not occur at an earlier position, then `a.Equal(b)` returns `false`. -/
theorem equal_detects_difference (areEqual : Value → Value → Bool)
    (hsound : ∀ x y, areEqual x y = true → x = y) (a b : Record)
    (hla : a.fieldNames.length = a.data.length) (hlb : b.fieldNames.length = b.data.length)
    (hsa : ¬ (a.metadata.eventTimeField.Source = "sys" ∧
      a.metadata.eventTimeField.Name = "event_time"))
    (hsb : ¬ (b.metadata.eventTimeField.Source = "sys" ∧
      b.metadata.eventTimeField.Name = "event_time"))
    (hdiff : a.metadata.undo ≠ b.metadata.undo ∨
      a.metadata.eventTimeField ≠ b.metadata.eventTimeField ∨
      ∃ (i : Nat) (n : VariableName), a.fieldNames[i]? = some n ∧ n.Source ≠ "sys" ∧
        (∀ j, j < i → a.fieldNames[j]? ≠ some n) ∧ a.data[i]? ≠ b.data[i]?)
    (depth : Nat) :
    Record.Equal areEqual (depth + 3) a b = .ok false := by
  obtain ⟨res, hres⟩ := equal_total areEqual (depth + 3) a b
    (fun f => value_ok a hla hsa f depth) (fun f => value_ok b hlb hsb f depth)
  cases res with
  | false => exact hres
  | true =>
    exfalso
    obtain ⟨hf, hv, he, hu⟩ := (equal_eq_true_iff areEqual (depth + 3) a b).1 hres
    rcases hdiff with h | h | ⟨i, n, hn, hsys, hfirst, hne⟩
    · exact h hu
    · exact h he
    · have hnames := fieldNames_eq_of_fields_eq a b hf he hu
      have hi : i < a.fieldNames.length := by
        rcases Nat.lt_or_ge i a.fieldNames.length with h | h
        · exact h
        · rw [List.getElem?_eq_none h] at hn
          cases hn
      have hia : i < a.data.length := hla ▸ hi
      have hib : i < b.data.length := by
        rw [← hlb, ← hnames]
        exact hi
      have hxa : a.data[i]? = some (a.data[i]) := List.getElem?_eq_getElem hia
      have hxb : b.data[i]? = some (b.data[i]) := List.getElem?_eq_getElem hib
      have hva : Record.Value (depth + 3) a n = .ok (a.data[i]) := by
        simp only [Record.Value, hsys, if_false]
        exact lookupField_first n _ _ i _ hn hfirst hxa
      have hvb : Record.Value (depth + 3) b n = .ok (b.data[i]) := by
        simp only [Record.Value, hsys, if_false]
        exact lookupField_first n _ _ i _ (hnames ▸ hn) (hnames ▸ hfirst) hxb
      have hmem : Field.mk n ∈ a.Fields := by
        have hin : n ∈ a.fieldNames := List.getElem?_mem hn
        unfold Record.Fields
        have hbase : Field.mk n ∈ a.fieldNames.map (fun fieldName => Field.mk fieldName) :=
          List.mem_map.2 ⟨n, hin, rfl⟩
        split <;> split <;> simp [hbase, hin]
      obtain ⟨x, y, h1, h2, h3⟩ := hv _ hmem
      simp only at h1 h2
      rw [hva] at h1
      rw [hvb] at h2
      cases h1
      cases h2
      have := hsound _ _ h3
      rw [hxa, hxb, this] at hne
      exact hne rfl

/-- Two records that differ in the data of the field `x`. -/
theorem equal_detects_difference_witness :
    Record.Equal (fun a b => decide (a = b)) 3
      (NewRecordFromSlice [NewVariableName "x"] [MakeInt 1] [])
      (NewRecordFromSlice [NewVariableName "x"] [MakeInt 2] []) = .ok false :=
  equal_detects_difference (fun a b => decide (a = b)) (by simp)
    (NewRecordFromSlice [NewVariableName "x"] [MakeInt 1] [])
    (NewRecordFromSlice [NewVariableName "x"] [MakeInt 2] [])
    rfl rfl (by decide) (by decide)
    (Or.inr (Or.inr ⟨0, NewVariableName "x", by decide, by decide, by simp, by decide⟩)) 0

/-- C12 as stated fails: the records `{x: 1, y: 2}` and `{y: 2, x: 1}` list the
same fields with the same values in a different order, with the same (empty)
event-time designator and undo flag, and `Equal` returns `false` for them,
whatever the depth; `AreEqual` is equality of values here. -/
theorem equal_field_set_counterexample :
    Record.Equal (fun a b => decide (a = b)) 3
        (NewRecordFromSlice [NewVariableName "x", NewVariableName "y"] [MakeInt 1, MakeInt 2] [])
        (NewRecordFromSlice [NewVariableName "y", NewVariableName "x"] [MakeInt 2, MakeInt 1] [])
      = .ok false ∧
    (∀ depth, Record.Equal (fun a b => decide (a = b)) depth
        (NewRecordFromSlice [NewVariableName "x", NewVariableName "y"] [MakeInt 1, MakeInt 2] [])
        (NewRecordFromSlice [NewVariableName "y", NewVariableName "x"] [MakeInt 2, MakeInt 1] [])
      ≠ .ok true) ∧
    (∀ f, f ∈ (NewRecordFromSlice [NewVariableName "x", NewVariableName "y"]
          [MakeInt 1, MakeInt 2] []).Fields ↔
        f ∈ (NewRecordFromSlice [NewVariableName "y", NewVariableName "x"]
          [MakeInt 2, MakeInt 1] []).Fields) ∧
    (∀ f ∈ (NewRecordFromSlice [NewVariableName "x", NewVariableName "y"]
          [MakeInt 1, MakeInt 2] []).Fields,
        ∃ v, Record.Value 1 (NewRecordFromSlice [NewVariableName "x", NewVariableName "y"]
            [MakeInt 1, MakeInt 2] []) f.Name = .ok v ∧
          Record.Value 1 (NewRecordFromSlice [NewVariableName "y", NewVariableName "x"]
            [MakeInt 2, MakeInt 1] []) f.Name = .ok v) := by
  refine ⟨by decide, ?_, ?_, ?_⟩
  · intro depth h
    have hf := ((equal_eq_true_iff _ depth _ _).1 h).1
    revert hf
    decide
  · intro f
    have h1 : (NewRecordFromSlice [NewVariableName "x", NewVariableName "y"]
          [MakeInt 1, MakeInt 2] []).Fields
        = [Field.mk (NewVariableName "x"), Field.mk (NewVariableName "y")] := by decide
    have h2 : (NewRecordFromSlice [NewVariableName "y", NewVariableName "x"]
          [MakeInt 2, MakeInt 1] []).Fields
        = [Field.mk (NewVariableName "y"), Field.mk (NewVariableName "x")] := by decide
    rw [h1, h2]
    simp only [List.mem_cons, List.mem_singleton, List.not_mem_nil, or_false]
    exact Or.comm
  · intro f hf
    have h1 : (NewRecordFromSlice [NewVariableName "x", NewVariableName "y"]
          [MakeInt 1, MakeInt 2] []).Fields
        = [Field.mk (NewVariableName "x"), Field.mk (NewVariableName "y")] := by decide
    rw [h1] at hf
    simp only [List.mem_cons, List.mem_singleton, List.not_mem_nil, or_false] at hf
    rcases hf with rfl | rfl
    · exact ⟨MakeInt 1, by decide, by decide⟩
    · exact ⟨MakeInt 2, by decide, by decide⟩

/-- C12, amended: for every two records `a` and `b`, `a.Equal(b)` returns `true`
if and only if `Fields()` lists the same virtual and physical field identifiers
in the same order for both, `Value` returns for every such field a value in `a`
and a value in `b` that `AreEqual` accepts, and their event-time designator and
undo flag match. -/
theorem equal_characterised_by_fields (areEqual : Value → Value → Bool) (depth : Nat)
    (a b : Record) :
    Record.Equal areEqual depth a b = .ok true ↔
      a.Fields = b.Fields ∧
      (∀ f ∈ a.Fields, ∃ x y, Record.Value depth a f.Name = .ok x ∧
        Record.Value depth b f.Name = .ok y ∧ areEqual x y = true) ∧
      a.metadata.eventTimeField = b.metadata.eventTimeField ∧
      a.metadata.undo = b.metadata.undo :=
  equal_eq_true_iff areEqual depth a b

/-- C13 as stated fails: in the record whose one physical field is `sys.x`, with
data 1 (so `len(fieldNames) = len(data)`), `Value(sys.x)` returns null and not
the stored value, whatever the depth. -/
theorem value_lookup_counterexample :
    Record.Value 1 (NewRecordFromSlice [NewVariableName "sys.x"] [MakeInt 1] [])
        (NewVariableName "sys.x") = .ok MakeNull ∧
    ∀ depth, Record.Value depth (NewRecordFromSlice [NewVariableName "sys.x"] [MakeInt 1] [])
        (NewVariableName "sys.x") ≠ .ok (MakeInt 1) := by
  refine ⟨by decide, ?_⟩
  intro depth h
  have h1 := value_mono_add _ depth 1 _ _ h
  have h2 := value_mono_add _ 1 depth (NewVariableName "sys.x") MakeNull
    (show Record.Value 1 (NewRecordFromSlice [NewVariableName "sys.x"] [MakeInt 1] [])
      (NewVariableName "sys.x") = .ok MakeNull by decide)
  rw [Nat.add_comm 1 depth, h1] at h2
  revert h2
  decide

/-- C13, amended: for every record with `len(fieldNames) = len(data)`:
`Value(f)` returns the value stored at the first position of `f` when `f` is a
physical field whose source is not `sys`; null when the source of `f` is not
`sys` and `f` is not a physical field, and null for an identifier of source
`sys` other than `sys.undo` and `sys.event_time`; the boolean undo flag for
`sys.undo`; and for `sys.event_time` what `Value` returns for the event-time
designator: the value stored for the designator when it is a physical field of
a source other than `sys`, and null when no designator is set and no physical
field has the empty name. -/
theorem value_lookup (r : Record) (hlen : r.fieldNames.length = r.data.length)
    (depth : Nat) :
    (∀ (i : Nat) (f : VariableName), r.fieldNames[i]? = some f → f.Source ≠ "sys" →
      (∀ j, j < i → r.fieldNames[j]? ≠ some f) →
      Record.Value (depth + 1) r f = .ok (r.data.getD i MakeNull) ∧
        r.data[i]? = some (r.data.getD i MakeNull)) ∧
    (∀ f : VariableName, f.Source ≠ "sys" → f ∉ r.fieldNames →
      Record.Value (depth + 1) r f = .ok MakeNull) ∧
    (∀ f : VariableName, f.Source = "sys" → f.Name ≠ "undo" → f.Name ≠ "event_time" →
      Record.Value (depth + 1) r f = .ok MakeNull) ∧
    Record.Value (depth + 1) r (NewVariableName "sys.undo") = .ok (MakeBool r.metadata.undo) ∧
    Record.Value (depth + 2) r (NewVariableName "sys.event_time")
      = Record.Value depth r r.metadata.eventTimeField ∧
    (∀ (i : Nat), r.fieldNames[i]? = some r.metadata.eventTimeField →
      r.metadata.eventTimeField.Source ≠ "sys" →
      (∀ j, j < i → r.fieldNames[j]? ≠ some r.metadata.eventTimeField) →
      Record.Value (depth + 3) r (NewVariableName "sys.event_time")
        = .ok (r.data.getD i MakeNull)) ∧
    (r.metadata.eventTimeField = NewVariableName "" → NewVariableName "" ∉ r.fieldNames →
      Record.Value (depth + 3) r (NewVariableName "sys.event_time") = .ok MakeNull) := by
  have h1 : (NewVariableName "sys.event_time").Source = "sys" := by decide
  have h2 : (NewVariableName "sys.event_time").Name ≠ "undo" := by decide
  have h3 : (NewVariableName "sys.event_time").Name = "event_time" := by decide
  have h4 : ¬ ("event_time" = "undo") := by decide
  have hphys : ∀ (d i : Nat) (f : VariableName), r.fieldNames[i]? = some f → f.Source ≠ "sys" →
      (∀ j, j < i → r.fieldNames[j]? ≠ some f) →
      Record.Value (d + 1) r f = .ok (r.data.getD i MakeNull) ∧
        r.data[i]? = some (r.data.getD i MakeNull) := by
    intro d i f hf hsys hfirst
    have hi : i < r.data.length := by
      rw [← hlen]
      rcases Nat.lt_or_ge i r.fieldNames.length with h | h
      · exact h
      · rw [List.getElem?_eq_none h] at hf
        cases hf
    have hx : r.data[i]? = some (r.data.getD i MakeNull) := by
      simp [List.getD_eq_getElem?_getD, List.getElem?_eq_getElem hi]
    refine ⟨?_, hx⟩
    simp only [Record.Value, hsys, if_false]
    exact lookupField_first f _ _ i _ hf hfirst hx
  have habsent : ∀ (names : List VariableName) (data : List Value) (f : VariableName),
      f ∉ names → lookupField f names data = .ok MakeNull := by
    intro names
    induction names with
    | nil => intro data f _; simp [lookupField]
    | cons n ns ih =>
      intro data f hf
      have hn : n ≠ f := fun h => hf (by simp [h])
      have hns : f ∉ ns := fun h => hf (List.mem_cons_of_mem _ h)
      cases data with
      | nil => simp only [lookupField, hn, if_false]; exact ih [] f hns
      | cons d ds => simp only [lookupField, hn, if_false]; exact ih ds f hns
  refine ⟨hphys depth, ?_, ?_, ?_, ?_, ?_, ?_⟩
  · intro f hsys hf
    simp only [Record.Value, hsys, if_false]
    exact habsent _ _ f hf
  · intro f hsys hu he
    simp [Record.Value, hsys, hu, he]
  · have hs : (NewVariableName "sys.undo").Source = "sys" := by decide
    have hn : (NewVariableName "sys.undo").Name = "undo" := by decide
    simp [Record.Value, hs, hn, Record.IsUndo]
  · simp only [Record.Value, Record.EventTime, h1, h3, h4, if_true, if_false]
  · intro i hf hsys hfirst
    have := (hphys depth i _ hf hsys hfirst).1
    simp only [Record.Value, Record.EventTime, h1, h3, h4, if_true, if_false]
    simpa only [Record.Value] using this
  · intro he hf
    have hs : (NewVariableName "").Source ≠ "sys" := by decide
    simp only [Record.Value, Record.EventTime, h1, h3, h4, if_true, if_false, he, hs]
    exact habsent _ _ _ hf

/-- The record `{a: 1, ts: 100}` with the event-time designator `ts`, read at
`sys.event_time`. -/
theorem value_lookup_witness :
    Record.Value 3
      (NewRecordFromSlice [NewVariableName "a", NewVariableName "ts"] [MakeInt 1, MakeInt 100]
        [RecordOption.WithEventTimeField (NewVariableName "ts")])
      (NewVariableName "sys.event_time") = .ok (MakeInt 100) :=
  (value_lookup
    (NewRecordFromSlice [NewVariableName "a", NewVariableName "ts"] [MakeInt 1, MakeInt 100]
      [RecordOption.WithEventTimeField (NewVariableName "ts")]) rfl 0).2.2.2.2.2.1
    1 (by decide) (by decide) (by decide)

/-- C14 as stated fails, whichever way scenario 5 is read. With the physical
fields `a` and `b` only, `Fields()` has length 4 but `Value(sys.event_time)` is
null, at no depth 100, because the designated field `ts` is not stored. With
`ts` stored as a third physical field (value 100), `Value(sys.event_time)` is
100 but `Fields()` has length 5. -/
theorem scenario_five_counterexample :
    ((NewRecord [NewVariableName "a", NewVariableName "b"]
          (fun f => if f = NewVariableName "a" then MakeInt 1 else MakeInt 2)
          [RecordOption.WithUndo,
            RecordOption.WithEventTimeField (NewVariableName "ts")]).Fields.length = 4 ∧
      Record.Value 3 (NewRecord [NewVariableName "a", NewVariableName "b"]
          (fun f => if f = NewVariableName "a" then MakeInt 1 else MakeInt 2)
          [RecordOption.WithUndo, RecordOption.WithEventTimeField (NewVariableName "ts")])
        (NewVariableName "sys.event_time") = .ok MakeNull ∧
      ∀ depth, Record.Value depth (NewRecord [NewVariableName "a", NewVariableName "b"]
          (fun f => if f = NewVariableName "a" then MakeInt 1 else MakeInt 2)
          [RecordOption.WithUndo, RecordOption.WithEventTimeField (NewVariableName "ts")])
        (NewVariableName "sys.event_time") ≠ .ok (MakeInt 100)) ∧
    (Record.Value 3 (NewRecord [NewVariableName "a", NewVariableName "b", NewVariableName "ts"]
          (fun f => if f = NewVariableName "a" then MakeInt 1
            else if f = NewVariableName "b" then MakeInt 2 else MakeInt 100)
          [RecordOption.WithUndo, RecordOption.WithEventTimeField (NewVariableName "ts")])
        (NewVariableName "sys.event_time") = .ok (MakeInt 100) ∧
      (NewRecord [NewVariableName "a", NewVariableName "b", NewVariableName "ts"]
          (fun f => if f = NewVariableName "a" then MakeInt 1
            else if f = NewVariableName "b" then MakeInt 2 else MakeInt 100)
          [RecordOption.WithUndo,
            RecordOption.WithEventTimeField (NewVariableName "ts")]).Fields.length ≠ 4) := by
  refine ⟨⟨by decide, by decide, ?_⟩, by decide, by decide⟩
  intro depth h
  have h1 := value_mono_add _ depth 3 _ _ h
  have h2 := value_mono_add _ 3 depth (NewVariableName "sys.event_time") MakeNull
    (show Record.Value 3 (NewRecord [NewVariableName "a", NewVariableName "b"]
        (fun f => if f = NewVariableName "a" then MakeInt 1 else MakeInt 2)
        [RecordOption.WithUndo, RecordOption.WithEventTimeField (NewVariableName "ts")])
      (NewVariableName "sys.event_time") = .ok MakeNull by decide)
  rw [Nat.add_comm 3 depth, h1] at h2
  revert h2
  decide

/-- C14, amended (scenario 5 with the event-time field stored): the record built
with the fields `{a: 1, b: 2, ts: 100}`, the undo flag set and the event-time
field designated as `ts` satisfies `Value(sys.undo) = true`,
`Value(sys.event_time) = 100` and `len(Fields()) = 5`, all three at once. -/
theorem scenario_five :
    Record.Value 3 (NewRecord [NewVariableName "a", NewVariableName "b", NewVariableName "ts"]
        (fun f => if f = NewVariableName "a" then MakeInt 1
          else if f = NewVariableName "b" then MakeInt 2 else MakeInt 100)
        [RecordOption.WithUndo, RecordOption.WithEventTimeField (NewVariableName "ts")])
      (NewVariableName "sys.undo") = .ok (MakeBool true) ∧
    Record.Value 3 (NewRecord [NewVariableName "a", NewVariableName "b", NewVariableName "ts"]
        (fun f => if f = NewVariableName "a" then MakeInt 1
          else if f = NewVariableName "b" then MakeInt 2 else MakeInt 100)
        [RecordOption.WithUndo, RecordOption.WithEventTimeField (NewVariableName "ts")])
      (NewVariableName "sys.event_time") = .ok (MakeInt 100) ∧
    (NewRecord [NewVariableName "a", NewVariableName "b", NewVariableName "ts"]
        (fun f => if f = NewVariableName "a" then MakeInt 1
          else if f = NewVariableName "b" then MakeInt 2 else MakeInt 100)
        [RecordOption.WithUndo,
          RecordOption.WithEventTimeField (NewVariableName "ts")]).Fields.length = 5 := by
  decide

/-- The loop of `AsVariables` on names without repetition and data of the same
length: it returns a map that holds, for every name, the data the loop of
`Value` finds for it, and is the map it started from everywhere else. -/
theorem asVariablesLoop_spec (names : List VariableName) (data : List Value) (out : Variables)
    (hlen : names.length = data.length) (hnd : names.Nodup) :
    ∃ vars, asVariablesLoop out names data = .ok vars ∧
      (∀ f, f ∉ names → vars f = out f) ∧
      (∀ f ∈ names, ∃ v, vars f = some v ∧ lookupField f names data = .ok v) := by
  induction names generalizing data out with
  | nil => exact ⟨out, by simp [asVariablesLoop]⟩
  | cons n ns ih =>
    cases data with
    | nil => simp at hlen
    | cons d ds =>
      obtain ⟨hn, hns⟩ := List.nodup_cons.1 hnd
      obtain ⟨vars, h1, h2, h3⟩ := ih ds (fun f => if f = n then some d else out f)
        (by simpa using hlen) hns
      refine ⟨vars, by simp only [asVariablesLoop, h1], ?_, ?_⟩
      · intro f hf
        have hfn : f ≠ n := fun h => hf (by simp [h])
        have hfns : f ∉ ns := fun h => hf (List.mem_cons_of_mem _ h)
        rw [h2 f hfns]
        simp [hfn]
      · intro f hf
        by_cases hfn : f = n
        · subst hfn
          refine ⟨d, ?_, by simp [lookupField]⟩
          rw [h2 f hn]
          simp
        · have hfns : f ∈ ns := by
            rcases List.mem_cons.1 hf with h | h
            · exact absurd h hfn
            · exact h
          obtain ⟨v, hv1, hv2⟩ := h3 f hfns
          exact ⟨v, hv1, by simp only [lookupField, Ne.symm hfn, if_false]; exact hv2⟩

/-- C18 as stated fails: in the record whose one physical field is `sys.x`, with
data 1, `AsVariables()` holds 1 for `sys.x` while `Value(sys.x)` is null. -/
theorem asVariables_agrees_counterexample :
    (∃ vars, Record.AsVariables (NewRecordFromSlice [NewVariableName "sys.x"] [MakeInt 1] [])
        = .ok vars ∧ vars (NewVariableName "sys.x") = some (MakeInt 1)) ∧
    Record.Value 1 (NewRecordFromSlice [NewVariableName "sys.x"] [MakeInt 1] [])
      (NewVariableName "sys.x") = .ok MakeNull := by
  refine ⟨⟨_, rfl, by decide⟩, by decide⟩

/-- C18, amended: for every record with `len(fieldNames) = len(data)` and pairwise
distinct field names, `AsVariables()` returns a map whose key set is exactly the
set of physical field names, and for every physical field `f` whose source is
not `sys`, `AsVariables()[f]` equals `Value(f)`. -/
theorem asVariables_agrees (r : Record) (hlen : r.fieldNames.length = r.data.length)
    (hnd : r.fieldNames.Nodup) :
    ∃ vars, r.AsVariables = .ok vars ∧
      (∀ f, (vars f).isSome = true ↔ f ∈ r.fieldNames) ∧
      (∀ f ∈ r.fieldNames, f.Source ≠ "sys" →
        ∀ depth, ∃ v, vars f = some v ∧ Record.Value (depth + 1) r f = .ok v) := by
  obtain ⟨vars, h1, h2, h3⟩ := asVariablesLoop_spec r.fieldNames r.data (fun _ => none) hlen hnd
  refine ⟨vars, h1, ?_, ?_⟩
  · intro f
    constructor
    · intro hs
      by_contra hf
      rw [h2 f hf] at hs
      simp at hs
    · intro hf
      obtain ⟨v, hv, _⟩ := h3 f hf
      simp [hv]
  · intro f hf hsys depth
    obtain ⟨v, hv1, hv2⟩ := h3 f hf
    exact ⟨v, hv1, by simp only [Record.Value, hsys, if_false]; exact hv2⟩

/-- The record `{a: 1, b: 2}` read at `b` through `AsVariables` and `Value`. -/
theorem asVariables_agrees_witness :
    ∃ vars, (NewRecordFromSlice [NewVariableName "a", NewVariableName "b"]
        [MakeInt 1, MakeInt 2] []).AsVariables = .ok vars ∧
      ∃ v, vars (NewVariableName "b") = some v ∧
        Record.Value 1 (NewRecordFromSlice [NewVariableName "a", NewVariableName "b"]
          [MakeInt 1, MakeInt 2] []) (NewVariableName "b") = .ok v := by
  obtain ⟨vars, h1, _, h3⟩ := asVariables_agrees
    (NewRecordFromSlice [NewVariableName "a", NewVariableName "b"] [MakeInt 1, MakeInt 2] [])
    rfl (by decide)
  exact ⟨vars, h1, h3 (NewVariableName "b") (by decide) (by decide) 0⟩

/-- C19 (Value is total), at the failing input: for the record with the one field
`ts` (value 100) and the event-time designator set to `sys.event_time` through
`WithEventTimeField`, `Value(sys.event_time)` does not return, whatever the
depth of nested calls allowed: `Value` calls `EventTime`, which calls `Value`
with the same field again. -/
theorem value_not_total_self_referential (depth : Nat) :
    Record.Value depth
      (NewRecord [NewVariableName "ts"] (fun _ => MakeInt 100)
        [RecordOption.WithEventTimeField (NewVariableName "sys.event_time")])
      (NewVariableName "sys.event_time") = .error Fault.depthExceeded :=
  (value_event_time_self_referential
    (NewRecord [NewVariableName "ts"] (fun _ => MakeInt 100)
      [RecordOption.WithEventTimeField (NewVariableName "sys.event_time")]) rfl depth).1

end execution
